import Mathlib

/-! Domain Redirector: rule editor and rule-store sync.

A shallow embedding of `src/options.js` (the rule editor) and `src/background.js`
(the sync of stored rules into declarativeNetRequest descriptors), followed by the
theorems that settle the specification's claims about them.

JavaScript strings are modelled as lists of characters, rule ids as mathematical
integers, asynchronous functions as functions on an explicit state, and every
`try/catch` as a case split on the outcome of the guarded browser call.
-/

namespace DomainRedirector

/-! ## Strings -/

/-- A JavaScript string, as the list of its characters. -/
abbrev Str := List Char

/-- The code points removed by `String.prototype.trim`: ECMAScript WhiteSpace and
LineTerminator. -/
def isTrimChar (c : Char) : Bool :=
  c.toNat == 0x09 || c.toNat == 0x0A || c.toNat == 0x0B || c.toNat == 0x0C ||
  c.toNat == 0x0D || c.toNat == 0x20 || c.toNat == 0xA0 || c.toNat == 0x1680 ||
  (0x2000 ≤ c.toNat && c.toNat ≤ 0x200A) || c.toNat == 0x2028 || c.toNat == 0x2029 ||
  c.toNat == 0x202F || c.toNat == 0x205F || c.toNat == 0x3000 || c.toNat == 0xFEFF

/-- The method `s.trim()`. -/
def trim (s : Str) : Str :=
  ((s.dropWhile isTrimChar).reverse.dropWhile isTrimChar).reverse

/-- The method `s.startsWith(p)`. -/
def startsWith (s p : Str) : Bool := p.isPrefixOf s

/-- The method `s.toLowerCase()`, on the ASCII letters. Every string that passes
`validateDomain` is ASCII, where this is the whole of the JavaScript case mapping. -/
def toLowerCase (s : Str) : Str := s.map Char.toLower

/-- The literal `'http://'`. -/
def httpPrefix : Str := "http://".toList

/-- The literal `'https://'`. -/
def httpsPrefix : Str := "https://".toList

/-! ## Regular expressions

The fragment of the JavaScript regular-expression language that the two source files
use: anchors, literal characters, escaped syntax characters, `.`, character classes
with ranges, capturing groups and the greedy quantifiers `?` and `*`. Matching is the
backtracking semantics of ECMAScript: the results of a match are listed in priority
order and the first one is the match the engine reports. -/

/-- Abstract syntax of a regular expression. -/
inductive Re where
  | bol : Re
  | eol : Re
  | chr (c : Char) : Re
  | any : Re
  | cls (ranges : List (Char × Char)) : Re
  | eps : Re
  | seq (a b : Re) : Re
  | opt (a : Re) : Re
  | star (a : Re) : Re
  | group (i : Nat) (a : Re) : Re
  deriving DecidableEq, Repr

/-- The line terminators, which `.` does not match. -/
def isLineTerminator (c : Char) : Bool :=
  c.toNat == 0x0A || c.toNat == 0x0D || c.toNat == 0x2028 || c.toNat == 0x2029

/-- Membership of a character in a class given by its ranges. -/
def inRanges (ranges : List (Char × Char)) (c : Char) : Bool :=
  ranges.any (fun r => decide (r.1 ≤ c) && decide (c ≤ r.2))

/-- A state of the matcher: the input not yet consumed and the groups captured so far
(most recent first). -/
structure MState where
  rest : Str
  caps : List (Nat × Str)
  deriving DecidableEq, Repr

/-- The capture groups opened inside an expression. -/
def Re.groups : Re → List Nat
  | .seq a b => a.groups ++ b.groups
  | .opt a => a.groups
  | .star a => a.groups
  | .group i a => i :: a.groups
  | _ => []

/-- Greedy iteration of a matcher: every iteration must consume input, the longest
chain of iterations comes first, stopping comes last. -/
def starLoop (step : MState → List MState) : Nat → MState → List MState
  | 0, st => [st]
  | fuel + 1, st =>
    ((step st).filter (fun st1 => decide (st1.rest.length < st.rest.length))).flatMap
      (starLoop step fuel) ++ [st]

/-- All the ways to match an expression at a state, in priority order; `n` is the
length of the whole input, so that `^` can tell the start of the input. -/
def Re.run (n : Nat) : Re → MState → List MState
  | .bol, st => if st.rest.length = n then [st] else []
  | .eol, st => if st.rest = [] then [st] else []
  | .chr c, st =>
    match st.rest with
    | x :: xs => if x = c then [{ st with rest := xs }] else []
    | [] => []
  | .any, st =>
    match st.rest with
    | x :: xs => if isLineTerminator x then [] else [{ st with rest := xs }]
    | [] => []
  | .cls ranges, st =>
    match st.rest with
    | x :: xs => if inRanges ranges x then [{ st with rest := xs }] else []
    | [] => []
  | .eps, st => [st]
  | .seq a b, st => (a.run n st).flatMap (fun st1 => b.run n st1)
  | .opt a, st =>
    (a.run n st).filter (fun st1 => decide (st1.rest.length < st.rest.length)) ++ [st]
  | .star a, st =>
    starLoop
      (fun s => a.run n { s with caps := s.caps.filter (fun c => !a.groups.contains c.1) })
      st.rest.length st
  | .group i a, st =>
    (a.run n st).map (fun st1 =>
      { st1 with caps := (i, st.rest.take (st.rest.length - st1.rest.length)) :: st1.caps })

/-- The outcome of a successful search: the text before the match, the matched text,
the text after it, and the captured groups. -/
structure Match where
  before : Str
  matched : Str
  after : Str
  caps : List (Nat × Str)
  deriving DecidableEq, Repr

/-- The leftmost match at or after the position whose remaining input is `s`;
`seen` is the input before that position, reversed. -/
def Re.searchFrom (r : Re) (n : Nat) : Str → Str → Option Match
  | seen, [] =>
    match (r.run n ⟨[], []⟩).head? with
    | some st => some ⟨seen.reverse, [], st.rest, st.caps⟩
    | none => none
  | seen, c :: cs =>
    match (r.run n ⟨c :: cs, []⟩).head? with
    | some st =>
      some ⟨seen.reverse, (c :: cs).take ((c :: cs).length - st.rest.length), st.rest, st.caps⟩
    | none => r.searchFrom n (c :: seen) cs

/-- The method `re.exec(input)` of a regular expression without flags. -/
def Re.exec (r : Re) (input : Str) : Option Match :=
  r.searchFrom input.length [] input

/-- The method `re.test(input)`. -/
def Re.test (r : Re) (input : Str) : Bool := (r.exec input).isSome

/-- The text of capture group `i` in a match, when the group took part in it. -/
def Match.group (m : Match) (i : Nat) : Option Str :=
  (m.caps.find? (fun c => c.1 == i)).map (fun c => c.2)

/-! ### Parsing a pattern -/

/-- Sequence of a list of expressions. -/
def seqAll : List Re → Re
  | [] => .eps
  | [r] => r
  | r :: rs => .seq r (seqAll rs)

/-- Parser state inside a character class: the ranges read so far (reversed), whether
the last one is a single character that may start a range, and whether a `-` was read
after it. -/
structure ClassState where
  items : List (Char × Char)
  single : Bool
  dash : Bool
  deriving DecidableEq, Repr

/-- Parser state: the enclosing open groups (number and items read before the group,
reversed), the items of the innermost open sequence (reversed), the number of the next
group, whether the previous character was an unconsumed backslash, whether the last
item may take a quantifier, and the open character class if any. -/
structure PState where
  outer : List (Nat × List Re)
  top : List Re
  nextGroup : Nat
  esc : Bool
  quantOk : Bool
  cls : Option ClassState
  deriving DecidableEq, Repr

/-- The syntax characters, which a backslash turns into literals. -/
def isSyntaxChar (c : Char) : Bool :=
  c == '^' || c == '$' || c == '\\' || c == '.' || c == '*' || c == '+' || c == '?' ||
  c == '(' || c == ')' || c == '[' || c == ']' || c == '{' || c == '}' || c == '|' ||
  c == '/' || c == '-'

/-- Adds a literal character to an open character class. -/
def classAdd (k : ClassState) (x : Char) : Option ClassState :=
  if k.dash then
    match k.items with
    | (a, _) :: items =>
      if a ≤ x then some ⟨(a, x) :: items, false, false⟩ else none
    | [] => none
  else some ⟨(x, x) :: k.items, true, false⟩

/-- Reads one character of a pattern. Syntax outside the fragment gives `none`. -/
def parseStep (p : PState) (c : Char) : Option PState :=
  match p.cls with
  | some k =>
    if p.esc then
      if isSyntaxChar c then (classAdd k c).map (fun k1 => { p with esc := false, cls := some k1 })
      else none
    else if c = '\\' then some { p with esc := true }
    else if c = ']' then
      some { p with
        top := .cls (if k.dash then (('-', '-') :: k.items).reverse else k.items.reverse) :: p.top,
        quantOk := true, cls := none }
    else if c = '^' && k.items.isEmpty then none
    else if c = '-' && k.single && !k.dash then some { p with cls := some { k with dash := true } }
    else (classAdd k c).map (fun k1 => { p with cls := some k1 })
  | none =>
    if p.esc then
      if isSyntaxChar c then some { p with top := .chr c :: p.top, esc := false, quantOk := true }
      else none
    else if c = '\\' then some { p with esc := true }
    else if c = '^' then some { p with top := .bol :: p.top, quantOk := false }
    else if c = '$' then some { p with top := .eol :: p.top, quantOk := false }
    else if c = '.' then some { p with top := .any :: p.top, quantOk := true }
    else if c = '[' then some { p with cls := some ⟨[], false, false⟩ }
    else if c = '(' then
      some { p with outer := (p.nextGroup, p.top) :: p.outer, top := [],
                    nextGroup := p.nextGroup + 1, quantOk := false }
    else if c = ')' then
      match p.outer with
      | (i, items) :: outer =>
        some { p with outer := outer, top := .group i (seqAll p.top.reverse) :: items,
                      quantOk := true }
      | [] => none
    else if c = '?' then
      match p.quantOk, p.top with
      | true, r :: rs => some { p with top := .opt r :: rs, quantOk := false }
      | _, _ => none
    else if c = '*' then
      match p.quantOk, p.top with
      | true, r :: rs => some { p with top := .star r :: rs, quantOk := false }
      | _, _ => none
    else if c = '+' || c = ']' || c = '{' || c = '}' || c = '|' then none
    else some { p with top := .chr c :: p.top, quantOk := true }

/-- Reads a whole pattern from a parser state. -/
def parseFrom : PState → Str → Option PState
  | p, [] => some p
  | p, c :: cs =>
    match parseStep p c with
    | some p1 => parseFrom p1 cs
    | none => none

/-- The expression denoted by a pattern, `none` when the pattern is malformed or uses
syntax outside the fragment. -/
def parseRegex (pattern : Str) : Option Re :=
  match parseFrom ⟨[], [], 1, false, false, none⟩ pattern with
  | some p =>
    if p.outer.isEmpty && !p.esc && p.cls.isNone then some (seqAll p.top.reverse) else none
  | none => none

/-- Whether a pattern, read as a regular expression, matches somewhere in the input. -/
def regexTest (pattern input : Str) : Bool :=
  match parseRegex pattern with
  | some r => r.test input
  | none => false

/-- The match of a pattern in the input, when there is one. -/
def regexExec (pattern input : Str) : Option Match :=
  match parseRegex pattern with
  | some r => r.exec input
  | none => none

/-- The call `s.replace(re, replacement)` for a regular expression without the global
flag and a replacement without `$` patterns: the first match is replaced. -/
def jsReplace (pattern replacement s : Str) : Str :=
  match regexExec pattern s with
  | some m => m.before ++ replacement ++ m.after
  | none => s

/-- The loop of a global replace from the position whose remaining input is `s`: a
match is replaced and the search resumes after it (one character further when the
match is empty), a character without match is copied. -/
def replaceAllFrom (r : Re) (n : Nat) (replacement : Str) : Nat → Str → Str
  | 0, s => s
  | fuel + 1, s =>
    match (r.run n ⟨s, []⟩).head? with
    | some st =>
      if st.rest.length < s.length then
        replacement ++ replaceAllFrom r n replacement fuel st.rest
      else
        match s with
        | [] => replacement
        | c :: cs => replacement ++ c :: replaceAllFrom r n replacement fuel cs
    | none =>
      match s with
      | [] => []
      | c :: cs => c :: replaceAllFrom r n replacement fuel cs

/-- The call `s.replace(re, replacement)` for a regular expression with the global flag
and a replacement without `$` patterns. -/
def jsReplaceAll (pattern replacement s : Str) : Str :=
  match parseRegex pattern with
  | some r => replaceAllFrom r s.length replacement (s.length + 1) s
  | none => s

/-- The call `s.replace(/^https?:\/\//, '')`, which the source writes out in
`validateDomain`, `normalizeDomain` and `buildRegexPattern`. -/
def stripProtocol (s : Str) : Str := jsReplace "^https?:\\/\\/".toList [] s

/-- The call `s.replace(/\/$/, '')`, which the source writes out in the same functions
and in `normalizeTargetDomain`. -/
def stripTrailingSlash (s : Str) : Str := jsReplace "\\/$".toList [] s

/-- The call `domain.replace(/\./g, '\\.')` of `buildRegexPattern`. -/
def escapeDots (domain : Str) : Str := jsReplaceAll "\\.".toList "\\.".toList domain

/-! ## The rule editor (`src/options.js`) -/

/-- A stored redirect rule. -/
structure Rule where
  id : Int
  sourceDomain : Str
  targetDomain : Str
  deriving DecidableEq, Repr

/-- The result of `validateDomain`: `{ valid: true }` or `{ valid: false, error }`. -/
inductive Validation where
  | ok : Validation
  | invalid (error : String) : Validation
  deriving DecidableEq, Repr

/-- The field `valid` of a validation result. -/
def Validation.valid : Validation → Bool
  | .ok => true
  | .invalid _ => false

/-- The source text of the literal `domainRegex` in `validateDomain`. -/
def domainRegexSource : Str :=
  "^[a-zA-Z0-9]([a-zA-Z0-9-]*[a-zA-Z0-9])?(\\.[a-zA-Z0-9]([a-zA-Z0-9-]*[a-zA-Z0-9])?)*$".toList

/-- The function `validateDomain(domain, isSource)`. -/
def validateDomain (domain : Str) (isSource : Bool) : Validation :=
  if domain = [] then .invalid "Domain cannot be empty"
  else
    let cleanDomain := stripTrailingSlash (stripProtocol domain)
    if cleanDomain = [] then .invalid "Invalid domain format"
    else if !regexTest domainRegexSource cleanDomain then
      .invalid "Invalid domain format. Use format: example.com"
    else if !isSource && !startsWith domain httpPrefix && !startsWith domain httpsPrefix then
      .invalid "Target domain must include protocol (http:// or https://)"
    else .ok

/-- The function `normalizeDomain(domain)`. -/
def normalizeDomain (domain : Str) : Str :=
  toLowerCase (stripTrailingSlash (stripProtocol domain))

/-- The function `checkDuplicateSource(sourceDomain, existingRules)`. -/
def checkDuplicateSource (sourceDomain : Str) (existingRules : List Rule) : Bool :=
  existingRules.any (fun rule => decide (normalizeDomain rule.sourceDomain = sourceDomain))

/-- The call `Math.max(...ids)` on a non-empty list of integers. -/
def mathMax : Int → List Int → Int
  | x, [] => x
  | x, y :: ys => mathMax (max x y) ys

/-- The function `generateRuleId(existingRules)` on mathematical integers. It is what
the source computes as long as the stored ids are below 2^53 in absolute value, where
the sum `maxId + 1` is exact; `generateRuleIdJs` has the arithmetic of JavaScript
numbers beyond that. -/
def generateRuleId (existingRules : List Rule) : Int :=
  match existingRules.map (fun r => r.id) with
  | [] => 1
  | x :: xs => mathMax x xs + 1

/-- The sum `n + 1` as JavaScript computes it for an integer-valued number `n`: the
nearest IEEE 754 double, ties going to the even significand. The sum is exact while it
is at most 2^53 = 9007199254740992 in absolute value; up to 2^54 = 18014398509481984
the doubles are the even integers and `n + 1` lies halfway between `n` and `n + 2`;
beyond, `n` itself is the nearest double. -/
def jsSucc (n : Int) : Int :=
  if -9007199254740993 ≤ n ∧ n < 9007199254740992 then n + 1
  else if -18014398509481984 ≤ n ∧ n ≤ 18014398509481984 then
    (if n % 4 = 0 then n else n + 2)
  else n

/-- The function `generateRuleId(existingRules)` with the sum `maxId + 1` computed on
JavaScript numbers. -/
def generateRuleIdJs (existingRules : List Rule) : Int :=
  match existingRules.map (fun r => r.id) with
  | [] => 1
  | x :: xs => jsSucc (mathMax x xs)

/-- Which calls of `browser.storage.local` reject while an operation runs. -/
structure Faults where
  getFails : Bool
  setFails : Bool
  deriving DecidableEq, Repr

/-- The state the options page works on: the value stored under the key `rules`
(`none` before the first write), the two input fields, the status message with its
type, the rules shown in the list, and the input that has the focus. -/
structure Page where
  stored : Option (List Rule)
  sourceValue : Str
  targetValue : Str
  status : Option (String × String)
  rendered : List Rule
  focused : Option String
  deriving DecidableEq, Repr

/-- The function `showStatus(message, type)`. -/
def showStatus (message type : String) (page : Page) : Page :=
  { page with status := some (message, type) }

/-- The function `renderRulesList(rules)`. -/
def renderRulesList (rules : List Rule) (page : Page) : Page :=
  { page with rendered := rules }

/-- The function `loadRules()`: the rules it returns and the page it leaves. -/
def loadRules (f : Faults) (page : Page) : List Rule × Page :=
  if f.getFails then ([], showStatus "Error loading rules" "error" page)
  else
    let rules := page.stored.getD []
    (rules, renderRulesList rules page)

/-- The function `addRule(event)`, the submit handler of the form. -/
def addRule (f : Faults) (page : Page) : Page :=
  let sourceDomain := trim page.sourceValue
  let targetDomain := trim page.targetValue
  match validateDomain sourceDomain true with
  | .invalid error => { showStatus error "error" page with focused := some "source-domain" }
  | .ok =>
    match validateDomain targetDomain false with
    | .invalid error => { showStatus error "error" page with focused := some "target-domain" }
    | .ok =>
      let normalizedSource := normalizeDomain sourceDomain
      let normalizedTarget := normalizeDomain targetDomain
      if normalizedSource = normalizedTarget then
        showStatus "Source and target domains must be different" "error" page
      else
        let (existingRules, page1) := loadRules f page
        if checkDuplicateSource normalizedSource existingRules then
          showStatus "Rule for this domain already exists" "error" page1
        else
          let ruleId := generateRuleId existingRules
          let newRule : Rule := ⟨ruleId, normalizedSource, trim targetDomain⟩
          let updatedRules := existingRules ++ [newRule]
          if f.setFails then showStatus "Error saving rule" "error" page1
          else
            let page2 := { page1 with stored := some updatedRules, sourceValue := [],
                                      targetValue := [] }
            showStatus "Rule added successfully" "success" (loadRules f page2).2

/-- The function `deleteRule(ruleId)`. -/
def deleteRule (f : Faults) (ruleId : Int) (page : Page) : Page :=
  if f.getFails then showStatus "Error deleting rule" "error" page
  else
    let existingRules := page.stored.getD []
    let updatedRules := existingRules.filter (fun rule => decide (rule.id ≠ ruleId))
    if f.setFails then showStatus "Error deleting rule" "error" page
    else
      showStatus "Rule deleted successfully" "success"
        (loadRules f { page with stored := some updatedRules }).2

/-- The options page when it is first opened on a given storage. -/
def Page.initial (stored : Option (List Rule)) : Page :=
  ⟨stored, [], [], none, [], none⟩

/-- The user types a source and a target into the form. -/
def Page.fill (page : Page) (source target : Str) : Page :=
  { page with sourceValue := source, targetValue := target }

/-! ## The rule-store sync (`src/background.js`) -/

/-- A declarativeNetRequest rule as `buildRedirectRule` builds it. -/
structure Descriptor where
  id : Int
  priority : Nat
  actionType : String
  regexSubstitution : Str
  regexFilter : Str
  resourceTypes : List String
  deriving DecidableEq, Repr

/-- The function `buildRegexPattern(sourceDomain)`. -/
def buildRegexPattern (sourceDomain : Str) : Str :=
  let domain := stripProtocol sourceDomain
  let domain := stripTrailingSlash domain
  let escapedDomain := escapeDots domain
  "^https?://".toList ++ escapedDomain ++ "(.*)".toList

/-- The function `normalizeTargetDomain(targetDomain)`. -/
def normalizeTargetDomain (targetDomain : Str) : Str :=
  if startsWith targetDomain httpPrefix || startsWith targetDomain httpsPrefix then
    stripTrailingSlash targetDomain
  else httpPrefix ++ stripTrailingSlash targetDomain

/-- The ten resource types listed in `buildRedirectRule`. -/
def resourceTypes : List String :=
  ["main_frame", "sub_frame", "xmlhttprequest", "stylesheet", "script", "image", "font",
   "object", "media", "other"]

/-- The function `buildRedirectRule(rule)`. -/
def buildRedirectRule (rule : Rule) : Descriptor :=
  let regexFilter := buildRegexPattern rule.sourceDomain
  let normalizedTarget := normalizeTargetDomain rule.targetDomain
  { id := rule.id
    priority := 1
    actionType := "redirect"
    regexSubstitution := normalizedTarget ++ ['\\', '1']
    regexFilter := regexFilter
    resourceTypes := resourceTypes }

/-- The browser as the background script meets it during one rebuild: whether
`storage.local.get` rejects, whether `getDynamicRules` rejects, and the verdict of the
host engine on an update, given the descriptors it would keep and those to add. -/
structure Host where
  storageGetFails : Bool
  getDynamicRulesFails : Bool
  accepts : List Descriptor → List Descriptor → Bool

/-- The host call `declarativeNetRequest.updateDynamicRules({removeRuleIds, addRules})`:
atomic, it removes the descriptors with the given ids and then adds the new ones, or
rejects and changes nothing. -/
def hostUpdateDynamicRules (host : Host) (active : List Descriptor) (removeRuleIds : List Int)
    (addRules : List Descriptor) : Option (List Descriptor) :=
  let kept := active.filter (fun d => !removeRuleIds.contains d.id)
  if host.accepts kept addRules then some (kept ++ addRules) else none

/-- The function `loadRulesFromStorage()`. -/
def loadRulesFromStorage (host : Host) (stored : Option (List Rule)) : List Rule :=
  if host.storageGetFails then [] else stored.getD []

/-- The function `updateDynamicRules(rules)`: the active descriptors it leaves. -/
def updateDynamicRules (host : Host) (rules : List Rule) (active : List Descriptor) :
    List Descriptor :=
  if host.getDynamicRulesFails then active
  else
    let existingRuleIds := active.map (fun rule => rule.id)
    let newRules := rules.map (fun rule => buildRedirectRule rule)
    match hostUpdateDynamicRules host active existingRuleIds newRules with
    | some updated => updated
    | none => active

/-- The function `rebuildRules()`: the active descriptors it leaves. -/
def rebuildRules (host : Host) (stored : Option (List Rule)) (active : List Descriptor) :
    List Descriptor :=
  let rules := loadRulesFromStorage host stored
  updateDynamicRules host rules active

/-- A host engine without faults that accepts an update when the resulting ids are
pairwise distinct and at least 1 and every added filter is a well-formed pattern. -/
def checkingHost : Host :=
  { storageGetFails := false
    getDynamicRulesFails := false
    accepts := fun kept added =>
      decide (((kept ++ added).map (fun d => d.id)).Nodup) &&
      added.all (fun d => decide (1 ≤ d.id) && (parseRegex d.regexFilter).isSome) }

/-- The listener that the background script registers with `browser.storage.onChanged`:
whether it calls `rebuildRules()` for a notification. `changes` lists the keys that
changed; `changes.rules` is truthy exactly when `rules` is one of them. -/
def listenerRebuilds (changes : List String) (areaName : String) : Bool :=
  decide (areaName = "local") && changes.contains "rules"

/-- The effect of a storage-change notification on the active descriptors. -/
def onStorageChanged (host : Host) (changes : List String) (areaName : String)
    (stored : Option (List Rule)) (active : List Descriptor) : List Descriptor :=
  if listenerRebuilds changes areaName then rebuildRules host stored active else active

/-! ## Applying a descriptor in the host engine -/

/-- The text that `\0` to `\9` stand for in a substitution: the whole match for 0, the
capture group otherwise (empty when the group took no part in the match). -/
def Match.reference (m : Match) (i : Nat) : Str :=
  if i = 0 then m.matched else (m.group i).getD []

/-- The expansion of a `regexSubstitution` for a match: a backslash followed by a digit
is replaced by the referenced text, a backslash followed by another character stands
for that character. -/
def expandSubstitution (m : Match) : Str → Str
  | [] => []
  | [c] => [c]
  | c :: d :: cs =>
    if c = '\\' then
      if d.isDigit then m.reference (d.toNat - '0'.toNat) ++ expandSubstitution m cs
      else d :: expandSubstitution m cs
    else c :: expandSubstitution m (d :: cs)

/-- The redirect that the host engine computes for a request URL from a descriptor:
the first match of `regexFilter` in the URL is replaced by the expanded
`regexSubstitution`; `none` when the filter does not match. -/
def applyDescriptor (d : Descriptor) (url : Str) : Option Str :=
  match regexExec d.regexFilter url with
  | some m => some (m.before ++ expandSubstitution m d.regexSubstitution ++ m.after)
  | none => none

/-! ## Sequences of editor operations -/

/-- One operation of the user on the options page: submitting the form with a source
and a target, or clicking the delete button of a rule; each with the storage faults
that occur while it runs. -/
inductive EditorOp where
  | add (f : Faults) (source target : Str) : EditorOp
  | delete (f : Faults) (ruleId : Int) : EditorOp
  deriving DecidableEq, Repr

/-- The page after one operation. -/
def EditorOp.apply (page : Page) : EditorOp → Page
  | .add f source target => addRule f (page.fill source target)
  | .delete f ruleId => deleteRule f ruleId page

/-- The page after a sequence of operations. -/
def runOps (page : Page) (ops : List EditorOp) : Page := ops.foldl EditorOp.apply page

/-- The rule set that a page holds in storage. -/
def Page.rules (page : Page) : List Rule := page.stored.getD []

/-- The first invariant of the data model: ids are pairwise distinct. -/
def idsDistinct (R : List Rule) : Prop := (R.map (fun r => r.id)).Nodup

/-- The second invariant: source domains are pairwise distinct after normalization. -/
def sourcesDistinct (R : List Rule) : Prop :=
  (R.map (fun r => normalizeDomain r.sourceDomain)).Nodup

/-- The third invariant: no source domain equals its normalized target. -/
def sourcesDifferFromTargets (R : List Rule) : Prop :=
  ∀ r ∈ R, r.sourceDomain ≠ normalizeDomain r.targetDomain

/-- The ids of the data model are at least 1. -/
def idsPositive (R : List Rule) : Prop := ∀ r ∈ R, 1 ≤ r.id

/-- The invariants of a rule set, taken together. -/
def RuleSetInvariant (R : List Rule) : Prop :=
  idsDistinct R ∧ sourcesDistinct R ∧ sourcesDifferFromTargets R ∧ idsPositive R

/-! ## The hostname grammar, in the words of the specification -/

/-- Letters and digits. -/
def isAlnum (c : Char) : Bool := c.isAlpha || c.isDigit

/-- A label: non-empty, made of letters, digits and hyphens, neither starting nor
ending with a hyphen. -/
def validLabel (l : Str) : Bool :=
  !l.isEmpty && l.all (fun c => isAlnum c || c == '-') && l.head? != some '-' &&
  l.getLast? != some '-'

/-- A valid hostname: one or more dot-separated labels. -/
def isHostname (s : Str) : Bool := (s.splitOn '.').all validLabel

/-- Whether a string starts with `http://` or `https://`. -/
def hasProtocol (s : Str) : Bool := startsWith s httpPrefix || startsWith s httpsPrefix

/-- The three ways to write the protocol part of a domain. -/
def IsProtocolPart (p : Str) : Prop := p = [] ∨ p = httpPrefix ∨ p = httpsPrefix

/-- The two ways to end a domain. -/
def IsSlashPart (sl : Str) : Prop := sl = [] ∨ sl = ['/']

/-- The class `[a-zA-Z0-9]`. -/
def alnumRanges : List (Char × Char) := [('a', 'z'), ('A', 'Z'), ('0', '9')]

/-- The class `[a-zA-Z0-9-]`. -/
def alnumHyphenRanges : List (Char × Char) := [('a', 'z'), ('A', 'Z'), ('0', '9'), ('-', '-')]

/-- The optional tail `([a-zA-Z0-9-]*[a-zA-Z0-9])?` of a label, as capture group `g`. -/
def labelTail (g : Nat) : Re :=
  .opt (.group g (.seq (.star (.cls alnumHyphenRanges)) (.cls alnumRanges)))

/-- The expression that `domainRegexSource` denotes. -/
def domainRegex : Re :=
  .seq .bol (.seq (.cls alnumRanges) (.seq (labelTail 1)
    (.seq (.star (.group 2 (.seq (.chr '.') (.seq (.cls alnumRanges) (labelTail 3))))) .eol)))

/-- The expression that `buildRegexPattern` denotes for a bare hostname `d`. -/
def filterRe (d : Str) : Re :=
  seqAll (Re.bol :: ("http".toList.map Re.chr ++
    (Re.opt (.chr 's') :: (("://".toList ++ d).map Re.chr ++ [Re.group 1 (.star .any)]))))

/-! ## The matcher without captures

Captures never influence which input a match consumes, so the remaining inputs of
`Re.run` are computed by the simpler functions below; the proofs about `test` go
through them. -/

/-- The iteration `starLoop` on remaining inputs only. -/
def starLoopR (step : Str → List Str) : Nat → Str → List Str
  | 0, s => [s]
  | fuel + 1, s =>
    ((step s).filter (fun x => decide (x.length < s.length))).flatMap
      (starLoopR step fuel) ++ [s]

/-- The remaining inputs of `Re.run`, in the same order. -/
def Re.runR (n : Nat) : Re → Str → List Str
  | .bol, s => if s.length = n then [s] else []
  | .eol, s => if s = [] then [s] else []
  | .chr c, s =>
    match s with
    | x :: xs => if x = c then [xs] else []
    | [] => []
  | .any, s =>
    match s with
    | x :: xs => if isLineTerminator x then [] else [xs]
    | [] => []
  | .cls ranges, s =>
    match s with
    | x :: xs => if inRanges ranges x then [xs] else []
    | [] => []
  | .eps, s => [s]
  | .seq a b, s => (a.runR n s).flatMap (fun x => b.runR n x)
  | .opt a, s => (a.runR n s).filter (fun x => decide (x.length < s.length)) ++ [s]
  | .star a, s => starLoopR (fun x => a.runR n x) s.length s
  | .group _ a, s => a.runR n s

/-- Repeated steps of a relation on inputs, each one consuming input. -/
inductive Chain (P : Str → Str → Prop) : Str → Str → Prop where
  | done (s : Str) : Chain P s s
  | more {s m x : Str} : P s m → m.length < s.length → Chain P m x → Chain P s x

/-! ## Lemmas on the matcher -/

theorem map_rest_flatMap (xs : List MState) (f : MState → List MState) (g : Str → List Str)
    (h : ∀ st, (f st).map (fun st1 => st1.rest) = g st.rest) :
    (xs.flatMap f).map (fun st1 => st1.rest) = (xs.map (fun st1 => st1.rest)).flatMap g := by
  induction xs with
  | nil => rfl
  | cons x xs ih => simp [List.flatMap_cons, h, ih]

theorem map_rest_filter (xs : List MState) (k : Nat) :
    (xs.filter (fun st1 => decide (st1.rest.length < k))).map (fun st1 => st1.rest)
      = (xs.map (fun st1 => st1.rest)).filter (fun x => decide (x.length < k)) := by
  induction xs with
  | nil => rfl
  | cons x xs ih =>
    by_cases hx : x.rest.length < k <;> simp [List.filter_cons, hx, ih]

theorem starLoop_rest (step : MState → List MState) (stepR : Str → List Str)
    (h : ∀ st, (step st).map (fun st1 => st1.rest) = stepR st.rest) (fuel : Nat) (st : MState) :
    (starLoop step fuel st).map (fun st1 => st1.rest) = starLoopR stepR fuel st.rest := by
  induction fuel generalizing st with
  | zero => rfl
  | succ fuel ih =>
    simp only [starLoop, starLoopR, List.map_append, List.map_cons, List.map_nil]
    rw [map_rest_flatMap _ _ (starLoopR stepR fuel) (fun st1 => ih st1), map_rest_filter, h]

theorem run_rest (n : Nat) (r : Re) (st : MState) :
    (r.run n st).map (fun st1 => st1.rest) = r.runR n st.rest := by
  induction r generalizing st with
  | bol => simp only [Re.run, Re.runR]; split <;> rfl
  | eol => simp only [Re.run, Re.runR]; split <;> rfl
  | chr c =>
    obtain ⟨rest, caps⟩ := st
    cases rest with
    | nil => rfl
    | cons x xs => simp only [Re.run, Re.runR]; split <;> rfl
  | any =>
    obtain ⟨rest, caps⟩ := st
    cases rest with
    | nil => rfl
    | cons x xs => simp only [Re.run, Re.runR]; split <;> rfl
  | cls ranges =>
    obtain ⟨rest, caps⟩ := st
    cases rest with
    | nil => rfl
    | cons x xs => simp only [Re.run, Re.runR]; split <;> rfl
  | eps => rfl
  | seq a b iha ihb =>
    simp only [Re.run, Re.runR]
    rw [map_rest_flatMap _ _ (fun x => b.runR n x) (fun st1 => ihb st1), iha]
  | opt a iha =>
    simp only [Re.run, Re.runR, List.map_append, List.map_cons, List.map_nil]
    rw [map_rest_filter, iha]
  | star a iha =>
    simp only [Re.run, Re.runR]
    exact starLoop_rest
      (fun s => a.run n { s with caps := s.caps.filter (fun c => !a.groups.contains c.1) })
      (fun x => a.runR n x) (fun st1 => iha _) _ _
  | group i a iha =>
    simp only [Re.run, Re.runR, List.map_map]
    exact iha st

theorem mem_starLoopR (step : Str → List Str) (fuel : Nat) (s x : Str) (h : s.length ≤ fuel) :
    x ∈ starLoopR step fuel s ↔ Chain (fun a b => b ∈ step a) s x := by
  induction fuel generalizing s with
  | zero =>
    have hs : s = [] := List.length_eq_zero.mp (Nat.le_zero.mp h)
    subst hs
    simp only [starLoopR, List.mem_singleton]
    constructor
    · rintro rfl; exact Chain.done _
    · intro hc
      cases hc with
      | done => rfl
      | more _ hlt _ => simp at hlt
  | succ fuel ih =>
    simp only [starLoopR, List.mem_append, List.mem_flatMap, List.mem_filter,
      decide_eq_true_eq, List.mem_singleton]
    constructor
    · rintro (⟨m, ⟨hm, hlt⟩, hx⟩ | rfl)
      · exact Chain.more hm hlt ((ih m (by omega)).mp hx)
      · exact Chain.done _
    · intro hc
      cases hc with
      | done => exact Or.inr rfl
      | more hm hlt hrest => exact Or.inl ⟨_, ⟨hm, hlt⟩, (ih _ (by omega)).mpr hrest⟩

theorem run_eq_nil_iff (n : Nat) (r : Re) (st : MState) :
    r.run n st = [] ↔ r.runR n st.rest = [] := by
  rw [← run_rest n r st, List.map_eq_nil_iff]

theorem mem_runR_chr (n : Nat) (c : Char) (s x : Str) :
    x ∈ (Re.chr c).runR n s ↔ s = c :: x := by
  cases s with
  | nil => simp [Re.runR]
  | cons y ys =>
    simp only [Re.runR]
    split
    · rename_i h; subst h; simp [eq_comm]
    · rename_i h; simp [h]

theorem mem_runR_cls (n : Nat) (ranges : List (Char × Char)) (s x : Str) :
    x ∈ (Re.cls ranges).runR n s ↔ ∃ c, inRanges ranges c = true ∧ s = c :: x := by
  cases s with
  | nil => simp [Re.runR]
  | cons y ys =>
    simp only [Re.runR]
    split
    · rename_i h
      simp only [List.mem_singleton, List.cons.injEq]
      constructor
      · rintro rfl; exact ⟨y, h, rfl, rfl⟩
      · rintro ⟨c, _, _, rfl⟩; rfl
    · rename_i h
      simp only [List.not_mem_nil, List.cons.injEq, false_iff, not_exists, not_and]
      rintro c hc rfl
      exact absurd hc h

theorem mem_runR_seq (n : Nat) (a b : Re) (s x : Str) :
    x ∈ (Re.seq a b).runR n s ↔ ∃ m, m ∈ a.runR n s ∧ x ∈ b.runR n m := by
  simp [Re.runR, List.mem_flatMap]

theorem mem_runR_opt (n : Nat) (a : Re) (s x : Str) :
    x ∈ (Re.opt a).runR n s ↔ (x ∈ a.runR n s ∧ x.length < s.length) ∨ x = s := by
  simp [Re.runR, List.mem_filter]

theorem mem_runR_star (n : Nat) (a : Re) (s x : Str) :
    x ∈ (Re.star a).runR n s ↔ Chain (fun p q => q ∈ a.runR n p) s x := by
  simp only [Re.runR]
  exact mem_starLoopR _ _ _ _ (Nat.le_refl _)

theorem mem_runR_group (n i : Nat) (a : Re) (s x : Str) :
    x ∈ (Re.group i a).runR n s ↔ x ∈ a.runR n s := by
  simp [Re.runR]

theorem mem_runR_eol (n : Nat) (s x : Str) : x ∈ Re.eol.runR n s ↔ s = [] ∧ x = [] := by
  simp only [Re.runR]
  split
  · rename_i h; subst h; simp
  · rename_i h; simp [h]

theorem chain_congr {P Q : Str → Str → Prop} (h : ∀ p q, P p q ↔ Q p q) (s x : Str) :
    Chain P s x ↔ Chain Q s x := by
  constructor
  · intro hc
    induction hc with
    | done => exact Chain.done _
    | more hp hlt _ ih => exact Chain.more ((h _ _).mp hp) hlt ih
  · intro hc
    induction hc with
    | done => exact Chain.done _
    | more hp hlt _ ih => exact Chain.more ((h _ _).mpr hp) hlt ih

/-- Iterating "one character of a class" consumes a word over the class. -/
theorem chain_chars (P : Char → Prop) (s x : Str) :
    Chain (fun p q => ∃ c, P c ∧ p = c :: q) s x ↔ ∃ w : Str, (∀ c ∈ w, P c) ∧ s = w ++ x := by
  constructor
  · intro hc
    induction hc with
    | done s => exact ⟨[], by simp, rfl⟩
    | more hp _ _ ih =>
      obtain ⟨c, hc, rfl⟩ := hp
      obtain ⟨w, hw, rfl⟩ := ih
      exact ⟨c :: w, by simpa [hc] using hw, rfl⟩
  · rintro ⟨w, hw, rfl⟩
    induction w with
    | nil => exact Chain.done _
    | cons c w ih =>
      refine Chain.more ⟨c, hw c (List.mem_cons_self _ _), rfl⟩ (by simp) (ih ?_)
      intro d hd
      exact hw d (List.mem_cons_of_mem _ hd)

/-- Iterating "a separator and a word" consumes a list of separated words. -/
theorem chain_words (sep : Char) (V : Str → Prop) (s x : Str) :
    Chain (fun p q => ∃ l, V l ∧ p = sep :: (l ++ q)) s x ↔
      ∃ ls : List Str, (∀ l ∈ ls, V l) ∧ s = ls.flatMap (fun l => sep :: l) ++ x := by
  constructor
  · intro hc
    induction hc with
    | done s => exact ⟨[], by simp, rfl⟩
    | more hp _ _ ih =>
      obtain ⟨l, hl, rfl⟩ := hp
      obtain ⟨ls, hls, rfl⟩ := ih
      exact ⟨l :: ls, by simpa [hl] using hls, by simp⟩
  · rintro ⟨ls, hls, rfl⟩
    induction ls with
    | nil => exact Chain.done _
    | cons l ls ih =>
      refine Chain.more ⟨l, hls l (List.mem_cons_self _ _), by simp⟩ (by simp; omega) (ih ?_)
      intro d hd
      exact hls d (List.mem_cons_of_mem _ hd)

theorem run_bol_seq_off (n : Nat) (r : Re) (st : MState) (h : st.rest.length ≠ n) :
    (Re.seq .bol r).run n st = [] := by
  simp [Re.run, h]

theorem run_bol_seq_at (r : Re) (st : MState) :
    (Re.seq .bol r).run st.rest.length st = r.run st.rest.length st := by
  simp [Re.run]

theorem searchFrom_bol (n : Nat) (r : Re) (seen cs : Str) (h : cs.length < n) :
    (Re.seq .bol r).searchFrom n seen cs = none := by
  induction cs generalizing seen with
  | nil =>
    have h0 : (Re.seq .bol r).run n ⟨[], []⟩ = [] := run_bol_seq_off n r _ (by simpa using h.ne)
    simp [Re.searchFrom, h0]
  | cons c cs ih =>
    have h0 : (Re.seq .bol r).run n ⟨c :: cs, []⟩ = [] := run_bol_seq_off n r _ (by simpa using h.ne)
    simp only [Re.searchFrom, h0, List.head?_nil]
    exact ih _ (by simp at h; omega)

/-- A pattern that starts with `^` matches in the input exactly when its remainder
matches at the start of the input. -/
theorem test_bol (r : Re) (s : Str) :
    (Re.seq .bol r).test s = true ↔ r.runR s.length s ≠ [] := by
  have hrun : (Re.seq .bol r).run s.length ⟨s, []⟩ = r.run s.length ⟨s, []⟩ :=
    run_bol_seq_at r ⟨s, []⟩
  have hnil : r.run s.length ⟨s, []⟩ = [] ↔ r.runR s.length s = [] :=
    run_eq_nil_iff s.length r ⟨s, []⟩
  unfold Re.test Re.exec
  generalize hn : s.length = n at hrun hnil ⊢
  cases s with
  | nil =>
    unfold Re.searchFrom
    rw [hrun]
    cases hr : r.run n ⟨[], []⟩ with
    | nil => simp [hnil.mp hr]
    | cons st sts =>
      have : r.runR n [] ≠ [] := fun h0 => by rw [hnil.mpr h0] at hr; cases hr
      simpa using this
  | cons c cs =>
    unfold Re.searchFrom
    rw [hrun]
    cases hr : r.run n ⟨c :: cs, []⟩ with
    | nil =>
      have h1 := searchFrom_bol n r [c] cs (by rw [← hn]; simp)
      simp [h1, hnil.mp hr]
    | cons st sts =>
      have : r.runR n (c :: cs) ≠ [] := fun h0 => by rw [hnil.mpr h0] at hr; cases hr
      simpa using this

theorem mem_runR_seqAll_cons (n : Nat) (r : Re) (rs : List Re) (s x : Str) :
    x ∈ (seqAll (r :: rs)).runR n s ↔ ∃ m, m ∈ r.runR n s ∧ x ∈ (seqAll rs).runR n m := by
  cases rs with
  | nil => simp [seqAll, Re.runR]
  | cons r1 rs => simp only [seqAll]; exact mem_runR_seq _ _ _ _ _

theorem mem_runR_lits (n : Nat) (w : Str) (rs : List Re) (s x : Str) :
    x ∈ (seqAll (w.map Re.chr ++ rs)).runR n s ↔
      ∃ m, s = w ++ m ∧ x ∈ (seqAll rs).runR n m := by
  induction w generalizing s with
  | nil => simp
  | cons c cs ih =>
    simp only [List.map_cons, List.cons_append]
    rw [mem_runR_seqAll_cons]
    constructor
    · rintro ⟨m, hm, hx⟩
      rw [mem_runR_chr] at hm
      obtain ⟨m1, hm1, hx1⟩ := (ih m).mp hx
      exact ⟨m1, by rw [hm, hm1], hx1⟩
    · rintro ⟨m, rfl, hx⟩
      exact ⟨cs ++ m, (mem_runR_chr _ _ _ _).mpr rfl, (ih _).mpr ⟨m, rfl, hx⟩⟩

theorem httpPrefix_eq : httpPrefix = ['h', 't', 't', 'p', ':', '/', '/'] := by decide

theorem httpsPrefix_eq : httpsPrefix = ['h', 't', 't', 'p', 's', ':', '/', '/'] := by decide

/-- The match of a pattern that starts with `^` is its match at the start. -/
theorem exec_bol (r : Re) (s : Str) :
    (Re.seq .bol r).exec s = ((r.run s.length ⟨s, []⟩).head?).map
      (fun st => ⟨[], s.take (s.length - st.rest.length), st.rest, st.caps⟩) := by
  have hrun : (Re.seq .bol r).run s.length ⟨s, []⟩ = r.run s.length ⟨s, []⟩ :=
    run_bol_seq_at r ⟨s, []⟩
  unfold Re.exec
  generalize hn : s.length = n at hrun ⊢
  cases s with
  | nil =>
    unfold Re.searchFrom
    rw [hrun]
    cases hr : (r.run n ⟨[], []⟩).head? <;> simp
  | cons c cs =>
    unfold Re.searchFrom
    rw [hrun]
    cases hr : (r.run n ⟨c :: cs, []⟩).head? with
    | none => simpa using searchFrom_bol n r [c] cs (by rw [← hn]; simp)
    | some st => subst hn; simp

/-! ## The regular-expression calls of the source -/

/-- The call `s.replace(/^https?:\/\//, '')` removes a leading `http://` or `https://`
and nothing else. -/
theorem stripProtocol_eq (s : Str) :
    stripProtocol s =
      if httpPrefix.isPrefixOf s then s.drop httpPrefix.length
      else if httpsPrefix.isPrefixOf s then s.drop httpsPrefix.length
      else s := by
  have hparse : parseRegex "^https?:\\/\\/".toList
      = some (.seq .bol (seqAll ("http".toList.map Re.chr ++
          (Re.opt (.chr 's') :: ("://".toList.map Re.chr ++ []))))) := by decide
  simp only [stripProtocol, jsReplace, regexExec, hparse, exec_bol]
  by_cases h1 : httpPrefix.isPrefixOf s = true
  · obtain ⟨t, rfl⟩ := List.isPrefixOf_iff_prefix.mp h1
    simp [httpPrefix_eq, seqAll, Re.run]
  · by_cases h2 : httpsPrefix.isPrefixOf s = true
    · obtain ⟨t, rfl⟩ := List.isPrefixOf_iff_prefix.mp h2
      simp [httpPrefix_eq, httpsPrefix_eq, seqAll, Re.run]
    · have hnil : (seqAll ("http".toList.map Re.chr ++
          (Re.opt (.chr 's') :: ("://".toList.map Re.chr ++ [])))).run s.length ⟨s, []⟩ = [] := by
        rw [run_eq_nil_iff]
        by_contra hne
        obtain ⟨x, hx⟩ := List.exists_mem_of_ne_nil _ hne
        obtain ⟨m1, hm1, hx⟩ := (mem_runR_lits _ _ _ _ _).mp hx
        obtain ⟨m2, hm2, hx⟩ := (mem_runR_seqAll_cons _ _ _ _ _).mp hx
        obtain ⟨m3, hm3, _⟩ := (mem_runR_lits _ _ _ _ _).mp hx
        simp only at hm1
        rcases (mem_runR_opt _ _ _ _).mp hm2 with ⟨hs, _⟩ | hs
        · rw [mem_runR_chr] at hs
          apply h2
          rw [List.isPrefixOf_iff_prefix]
          exact ⟨m3, by rw [hm1, hs, hm3]; simp [httpsPrefix_eq]⟩
        · apply h1
          rw [List.isPrefixOf_iff_prefix]
          exact ⟨m3, by rw [hm1, ← hs, hm3]; simp [httpPrefix_eq]⟩
      rw [hnil]
      simp [h1, h2]

theorem searchFrom_trailing_slash (n : Nat) (seen s : Str) :
    (Re.seq (.chr '/') .eol).searchFrom n seen s =
      if s.getLast? = some '/' then some ⟨seen.reverse ++ s.dropLast, ['/'], [], []⟩
      else none := by
  induction s generalizing seen with
  | nil => simp [Re.searchFrom, Re.run]
  | cons c cs ih =>
    cases cs with
    | nil =>
      by_cases hc : c = '/'
      · subst hc; simp [Re.searchFrom, Re.run]
      · simp [Re.searchFrom, Re.run, hc]
    | cons c1 cs1 =>
      have hrun : (Re.seq (.chr '/') .eol).run n ⟨c :: c1 :: cs1, []⟩ = [] := by
        by_cases hc : c = '/'
        · subst hc; simp [Re.run]
        · simp [Re.run, hc]
      rw [Re.searchFrom, hrun]
      simp only [List.head?_nil]
      rw [ih]
      simp [List.getLast?_cons_cons]

/-- The call `s.replace(/\/$/, '')` removes one trailing slash. -/
theorem stripTrailingSlash_eq (s : Str) :
    stripTrailingSlash s = if s.getLast? = some '/' then s.dropLast else s := by
  have hparse : parseRegex "\\/$".toList = some (.seq (.chr '/') .eol) := by decide
  simp only [stripTrailingSlash, jsReplace, regexExec, hparse, Re.exec,
    searchFrom_trailing_slash]
  by_cases h : s.getLast? = some '/' <;> simp [h]

theorem replaceAllFrom_dot (n : Nat) (replacement : Str) (fuel : Nat) (s : Str)
    (h : s.length < fuel) :
    replaceAllFrom (.chr '.') n replacement fuel s
      = s.flatMap (fun c => if c = '.' then replacement else [c]) := by
  induction fuel generalizing s with
  | zero => simp at h
  | succ fuel ih =>
    cases s with
    | nil => simp [replaceAllFrom, Re.run]
    | cons c cs =>
      have hcs : cs.length < fuel := by simp at h; omega
      by_cases hc : c = '.'
      · subst hc
        simp [replaceAllFrom, Re.run, ih cs hcs, List.flatMap_cons]
      · simp [replaceAllFrom, Re.run, hc, ih cs hcs, List.flatMap_cons]

/-- The call `domain.replace(/\./g, '\\.')` puts a backslash before every dot. -/
theorem escapeDots_eq (s : Str) :
    escapeDots s = s.flatMap (fun c => if c = '.' then ['\\', '.'] else [c]) := by
  have hparse : parseRegex "\\.".toList = some (.chr '.') := by decide
  have e : "\\.".toList = ['\\', '.'] := rfl
  simp only [escapeDots, jsReplaceAll, hparse]
  rw [replaceAllFrom_dot _ _ _ _ (Nat.lt_succ_self _), e]

/-! ## The hostname grammar and `domainRegex` -/

theorem parse_domainRegex : parseRegex domainRegexSource = some domainRegex := by decide

theorem inRanges_alnum (c : Char) : inRanges alnumRanges c = isAlnum c := by
  rw [Bool.eq_iff_iff]
  simp only [inRanges, alnumRanges, isAlnum, Char.isAlpha, Char.isUpper, Char.isLower,
    Char.isDigit, List.any_cons, List.any_nil, Bool.or_false, Bool.or_eq_true,
    Bool.and_eq_true, decide_eq_true_eq, Char.le_def, ge_iff_le]
  have h1 : ('a' : Char).val = 97 := rfl
  have h2 : ('z' : Char).val = 122 := rfl
  have h3 : ('A' : Char).val = 65 := rfl
  have h4 : ('Z' : Char).val = 90 := rfl
  have h5 : ('0' : Char).val = 48 := rfl
  have h6 : ('9' : Char).val = 57 := rfl
  rw [h1, h2, h3, h4, h5, h6]
  tauto

theorem inRanges_alnumHyphen (c : Char) :
    inRanges alnumHyphenRanges c = (isAlnum c || c == '-') := by
  have h : inRanges alnumHyphenRanges c
      = (inRanges alnumRanges c || (decide ('-' ≤ c) && decide (c ≤ '-'))) := by
    simp [inRanges, alnumHyphenRanges, alnumRanges, Bool.or_assoc]
  rw [h, inRanges_alnum]
  congr 1
  rw [Bool.eq_iff_iff]
  simp only [Bool.and_eq_true, decide_eq_true_eq, beq_iff_eq]
  constructor
  · rintro ⟨h1, h2⟩; exact le_antisymm h2 h1
  · rintro rfl; exact ⟨le_refl _, le_refl _⟩

theorem isAlnum_ne_hyphen (c : Char) (h : isAlnum c = true) : c ≠ '-' := by
  rintro rfl; revert h; decide

theorem validLabel_iff (l : Str) :
    validLabel l = true ↔
      (∃ c, isAlnum c = true ∧ l = [c]) ∨
      (∃ c w c1, isAlnum c = true ∧ (∀ y ∈ w, (isAlnum y || y == '-') = true) ∧
        isAlnum c1 = true ∧ l = c :: (w ++ [c1])) := by
  constructor
  · intro h
    simp only [validLabel, Bool.and_eq_true, Bool.not_eq_true', List.all_eq_true, bne_iff_ne, ne_eq] at h
    obtain ⟨⟨⟨hne, hall⟩, hhead⟩, hlast⟩ := h
    cases l with
    | nil => simp at hne
    | cons c t =>
      have hc : isAlnum c = true := by
        have := hall c (List.mem_cons_self _ _)
        simp only [Bool.or_eq_true, beq_iff_eq] at this
        rcases this with h1 | h1
        · exact h1
        · subst h1; simp at hhead
      rcases List.eq_nil_or_concat t with rfl | ⟨w, c1, ht⟩
      · exact Or.inl ⟨c, hc, rfl⟩
      · rw [List.concat_eq_append] at ht
        subst ht
        refine Or.inr ⟨c, w, c1, hc, ?_, ?_, rfl⟩
        · intro y hy
          exact hall y (by simp [hy])
        · have := hall c1 (by simp)
          simp only [Bool.or_eq_true, beq_iff_eq] at this
          rcases this with h1 | h1
          · exact h1
          · subst h1
            exfalso; apply hlast
            rw [← List.cons_append, List.getLast?_append]; simp
  · rintro (⟨c, hc, rfl⟩ | ⟨c, w, c1, hc, hw, hc1, rfl⟩)
    · have := isAlnum_ne_hyphen c hc
      simp [validLabel, hc, this]
    · have h0 := isAlnum_ne_hyphen c hc
      have h1 := isAlnum_ne_hyphen c1 hc1
      simp only [validLabel, Bool.and_eq_true, Bool.not_eq_true', List.all_eq_true, bne_iff_ne, ne_eq]
      refine ⟨⟨⟨by simp, ?_⟩, by simp [h0]⟩, ?_⟩
      · intro y hy
        simp only [List.mem_cons, List.mem_append, List.mem_singleton, List.not_mem_nil, or_false] at hy
        rcases hy with rfl | hy | rfl
        · simp [hc]
        · exact hw y hy
        · simp [hc1]
      · rw [← List.cons_append, List.getLast?_append]; simp [h1]

theorem intercalate_cons_eq (sep : Char) (l : Str) (ls : List Str) :
    [sep].intercalate (l :: ls) = l ++ ls.flatMap (fun x => sep :: x) := by
  induction ls generalizing l with
  | nil => simp [List.intercalate]
  | cons l1 ls ih =>
    have := ih l1
    simp only [List.intercalate] at this ⊢
    simp [List.flatMap_cons, List.intersperse, this]

theorem mem_labelTail (n g : Nat) (m x : Str) :
    x ∈ (labelTail g).runR n m ↔
      (∃ w c1, (∀ y ∈ w, (isAlnum y || y == '-') = true) ∧ isAlnum c1 = true ∧
        m = w ++ c1 :: x) ∨ x = m := by
  have hstar : ∀ p q : Str, q ∈ (Re.star (.cls alnumHyphenRanges)).runR n p ↔
      ∃ w : Str, (∀ y ∈ w, (isAlnum y || y == '-') = true) ∧ p = w ++ q := by
    intro p q
    rw [mem_runR_star,
      chain_congr (fun a b => mem_runR_cls n alnumHyphenRanges a b) p q,
      chain_chars (fun c => inRanges alnumHyphenRanges c = true) p q]
    simp only [inRanges_alnumHyphen]
  rw [labelTail, mem_runR_opt, mem_runR_group, mem_runR_seq]
  constructor
  · rintro (⟨⟨m1, h1, h2⟩, _⟩ | rfl)
    · obtain ⟨w, hw, rfl⟩ := (hstar _ _).mp h1
      obtain ⟨c1, hc1, rfl⟩ := (mem_runR_cls _ _ _ _).mp h2
      rw [inRanges_alnum] at hc1
      exact Or.inl ⟨w, c1, hw, hc1, rfl⟩
    · exact Or.inr rfl
  · rintro (⟨w, c1, hw, hc1, rfl⟩ | rfl)
    · refine Or.inl ⟨⟨c1 :: x, (hstar _ _).mpr ⟨w, hw, rfl⟩, ?_⟩, by simp; omega⟩
      exact (mem_runR_cls _ _ _ _).mpr ⟨c1, by rw [inRanges_alnum]; exact hc1, rfl⟩
    · exact Or.inr rfl

/-- A letter or digit followed by the optional tail consumes exactly a valid label. -/
theorem mem_label (n g : Nat) (s x : Str) :
    (∃ m, m ∈ (Re.cls alnumRanges).runR n s ∧ x ∈ (labelTail g).runR n m) ↔
      ∃ l, validLabel l = true ∧ s = l ++ x := by
  constructor
  · rintro ⟨m, h1, h2⟩
    obtain ⟨c, hc, rfl⟩ := (mem_runR_cls _ _ _ _).mp h1
    rw [inRanges_alnum] at hc
    rcases (mem_labelTail _ _ _ _).mp h2 with ⟨w, c1, hw, hc1, rfl⟩ | rfl
    · exact ⟨c :: (w ++ [c1]), (validLabel_iff _).mpr (Or.inr ⟨c, w, c1, hc, hw, hc1, rfl⟩),
        by simp⟩
    · exact ⟨[c], (validLabel_iff _).mpr (Or.inl ⟨c, hc, rfl⟩), rfl⟩
  · rintro ⟨l, hl, rfl⟩
    rcases (validLabel_iff l).mp hl with ⟨c, hc, rfl⟩ | ⟨c, w, c1, hc, hw, hc1, rfl⟩
    · exact ⟨x, (mem_runR_cls _ _ _ _).mpr ⟨c, by rw [inRanges_alnum]; exact hc, rfl⟩,
        (mem_labelTail _ _ _ _).mpr (Or.inr rfl)⟩
    · exact ⟨w ++ c1 :: x, (mem_runR_cls _ _ _ _).mpr ⟨c, by rw [inRanges_alnum]; exact hc, by simp⟩,
        (mem_labelTail _ _ _ _).mpr (Or.inl ⟨w, c1, hw, hc1, rfl⟩)⟩

theorem validLabel_no_dot (l : Str) (h : validLabel l = true) : '.' ∉ l := by
  intro hmem
  simp only [validLabel, Bool.and_eq_true, List.all_eq_true] at h
  have := h.1.1.2 '.' hmem
  revert this
  decide

/-- A valid hostname is a valid label followed by dot-prefixed valid labels. -/
theorem isHostname_iff (s : Str) :
    isHostname s = true ↔
      ∃ (l : Str) (ls : List Str), validLabel l = true ∧ (∀ l1 ∈ ls, validLabel l1 = true) ∧
        s = l ++ ls.flatMap (fun x => '.' :: x) := by
  constructor
  · intro h
    have hs : ['.'].intercalate (s.splitOn '.') = s := List.intercalate_splitOn s '.'
    have hne : s.splitOn '.' ≠ [] := List.splitOnP_ne_nil _ _
    simp only [isHostname, List.all_eq_true] at h
    cases hL : s.splitOn '.' with
    | nil => exact absurd hL hne
    | cons l ls =>
      rw [hL] at hs h
      rw [intercalate_cons_eq] at hs
      exact ⟨l, ls, h l (List.mem_cons_self _ _), fun l1 h1 => h l1 (List.mem_cons_of_mem _ h1),
        hs.symm⟩
  · rintro ⟨l, ls, hl, hls, rfl⟩
    have hall : ∀ l1 ∈ l :: ls, validLabel l1 = true := by
      intro l1 h1
      rcases List.mem_cons.mp h1 with rfl | h1
      · exact hl
      · exact hls l1 h1
    have hsplit : (['.'].intercalate (l :: ls)).splitOn '.' = l :: ls :=
      List.splitOn_intercalate (l :: ls) '.' (fun l1 h1 => validLabel_no_dot l1 (hall l1 h1)) (by simp)
    rw [intercalate_cons_eq] at hsplit
    simp only [isHostname, hsplit, List.all_eq_true]
    exact hall

/-- The refinement: the regular expression of `validateDomain` accepts exactly the
valid hostnames. -/
theorem domainRegex_test (s : Str) : regexTest domainRegexSource s = isHostname s := by
  rw [Bool.eq_iff_iff, isHostname_iff]
  simp only [regexTest, parse_domainRegex]
  rw [domainRegex, test_bol]
  constructor
  · intro h
    obtain ⟨x, hx⟩ := List.exists_mem_of_ne_nil _ h
    obtain ⟨m1, h1, hx⟩ := (mem_runR_seq _ _ _ _ _).mp hx
    obtain ⟨m2, h2, hx⟩ := (mem_runR_seq _ _ _ _ _).mp hx
    obtain ⟨m3, h3, hx⟩ := (mem_runR_seq _ _ _ _ _).mp hx
    obtain ⟨l, hl, rfl⟩ := (mem_label _ 1 _ m2).mp ⟨m1, h1, h2⟩
    obtain ⟨rfl, rfl⟩ := (mem_runR_eol _ _ _).mp hx
    rw [mem_runR_star] at h3
    have h4 := (chain_congr (Q := fun p q => ∃ l, validLabel l = true ∧ p = '.' :: (l ++ q))
      (fun p q => by
        rw [mem_runR_group, mem_runR_seq]
        constructor
        · rintro ⟨m0, hm0, hq⟩
          rw [mem_runR_chr] at hm0
          subst hm0
          obtain ⟨k1, hk1, hq⟩ := (mem_runR_seq _ _ _ _ _).mp hq
          obtain ⟨l1, hl1, rfl⟩ := (mem_label _ 3 _ q).mp ⟨k1, hk1, hq⟩
          exact ⟨l1, hl1, rfl⟩
        · rintro ⟨l1, hl1, rfl⟩
          obtain ⟨k1, hk1, hq⟩ := (mem_label _ 3 (l1 ++ q) q).mpr ⟨l1, hl1, rfl⟩
          exact ⟨l1 ++ q, (mem_runR_chr _ _ _ _).mpr rfl,
            (mem_runR_seq _ _ _ _ _).mpr ⟨k1, hk1, hq⟩⟩) m2 []).mp h3
    obtain ⟨ls, hls, rfl⟩ := (chain_words '.' (fun l => validLabel l = true) m2 []).mp h4
    exact ⟨l, ls, hl, hls, by simp⟩
  · rintro ⟨l, ls, hl, hls, hs⟩
    apply List.ne_nil_of_mem (a := [])
    obtain ⟨m1, h1, h2⟩ := (mem_label s.length 1 s (ls.flatMap (fun x => '.' :: x))).mpr ⟨l, hl, hs⟩
    refine (mem_runR_seq _ _ _ _ _).mpr ⟨m1, h1, (mem_runR_seq _ _ _ _ _).mpr ⟨_, h2,
      (mem_runR_seq _ _ _ _ _).mpr ⟨[], ?_, (mem_runR_eol _ _ _).mpr ⟨rfl, rfl⟩⟩⟩⟩
    rw [mem_runR_star]
    refine (chain_congr (Q := fun p q => ∃ l, validLabel l = true ∧ p = '.' :: (l ++ q))
      (fun p q => ?_) _ []).mpr
        ((chain_words '.' (fun l => validLabel l = true) _ []).mpr ⟨ls, hls, by simp⟩)
    rw [mem_runR_group, mem_runR_seq]
    constructor
    · rintro ⟨m0, hm0, hq⟩
      rw [mem_runR_chr] at hm0
      subst hm0
      obtain ⟨k1, hk1, hq⟩ := (mem_runR_seq _ _ _ _ _).mp hq
      obtain ⟨l1, hl1, rfl⟩ := (mem_label _ 3 _ q).mp ⟨k1, hk1, hq⟩
      exact ⟨l1, hl1, rfl⟩
    · rintro ⟨l1, hl1, rfl⟩
      obtain ⟨k1, hk1, hq⟩ := (mem_label s.length 3 (l1 ++ q) q).mpr ⟨l1, hl1, rfl⟩
      exact ⟨l1 ++ q, (mem_runR_chr _ _ _ _).mpr rfl,
        (mem_runR_seq _ _ _ _ _).mpr ⟨k1, hk1, hq⟩⟩

/-! ## Strings built from a valid hostname -/

theorem isAlnum_toNat (c : Char) (h : isAlnum c = true) :
    (48 ≤ c.toNat ∧ c.toNat ≤ 57) ∨ (65 ≤ c.toNat ∧ c.toNat ≤ 90) ∨ (97 ≤ c.toNat ∧ c.toNat ≤ 122) := by
  simp only [isAlnum, Char.isAlpha, Char.isUpper, Char.isLower, Char.isDigit, Bool.or_eq_true,
    Bool.and_eq_true, decide_eq_true_eq, ge_iff_le, UInt32.le_def, Fin.le_def] at h
  have e : c.toNat = c.val.val.val := rfl
  rw [e]
  change (((65 : Nat) ≤ c.val.val.val ∧ c.val.val.val ≤ 90) ∨ ((97 : Nat) ≤ c.val.val.val ∧ c.val.val.val ≤ 122)) ∨ ((48 : Nat) ≤ c.val.val.val ∧ c.val.val.val ≤ 57) at h
  omega

theorem isAlnum_not_trim (c : Char) (h : isAlnum c = true) : isTrimChar c = false := by
  have := isAlnum_toNat c h
  simp only [isTrimChar, Bool.or_eq_false_iff, Bool.and_eq_false_iff, beq_eq_false_iff_ne, ne_eq, decide_eq_false_iff_not]
  omega

theorem trim_eq_self (s : Str) (hh : ∀ c, s.head? = some c → isTrimChar c = false)
    (hl : ∀ c, s.getLast? = some c → isTrimChar c = false) : trim s = s := by
  have h1 : s.dropWhile isTrimChar = s := by
    cases s with
    | nil => rfl
    | cons c t => simp [List.dropWhile, hh c rfl]
  have h2 : s.reverse.dropWhile isTrimChar = s.reverse := by
    cases hr : s.reverse with
    | nil => rfl
    | cons c t =>
      have : s.getLast? = some c := by
        rw [← List.head?_reverse, hr]; rfl
      simp [List.dropWhile, hl c this]
  rw [trim, h1, h2, List.reverse_reverse]

theorem validLabel_head (l : Str) (h : validLabel l = true) :
    ∃ c t, l = c :: t ∧ isAlnum c = true := by
  rcases (validLabel_iff l).mp h with ⟨c, hc, rfl⟩ | ⟨c, w, c1, hc, _, _, rfl⟩
  · exact ⟨c, [], rfl, hc⟩
  · exact ⟨c, _, rfl, hc⟩

theorem validLabel_last (l : Str) (h : validLabel l = true) :
    ∃ t c, l = t ++ [c] ∧ isAlnum c = true := by
  rcases (validLabel_iff l).mp h with ⟨c, hc, rfl⟩ | ⟨c, w, c1, _, _, hc1, rfl⟩
  · exact ⟨[], c, rfl, hc⟩
  · exact ⟨c :: w, c1, rfl, hc1⟩

theorem validLabel_chars (l : Str) (h : validLabel l = true) :
    ∀ c ∈ l, (isAlnum c || c == '-') = true := by
  simp only [validLabel, Bool.and_eq_true, List.all_eq_true] at h
  exact h.1.1.2

theorem hostname_chars (h : Str) (hh : isHostname h = true) :
    ∀ c ∈ h, (isAlnum c || c == '-' || c == '.') = true := by
  obtain ⟨l, ls, hl, hls, rfl⟩ := (isHostname_iff h).mp hh
  intro c hc
  rcases List.mem_append.mp hc with hc | hc
  · simp only [Bool.or_eq_true]
    exact Or.inl (by simpa using validLabel_chars l hl c hc)
  · obtain ⟨l1, h1, hc⟩ := List.mem_flatMap.mp hc
    rcases List.mem_cons.mp hc with rfl | hc
    · simp
    · simp only [Bool.or_eq_true]
      exact Or.inl (by simpa using validLabel_chars l1 (hls l1 h1) c hc)

theorem hostname_head (h : Str) (hh : isHostname h = true) :
    ∃ c t, h = c :: t ∧ isAlnum c = true := by
  obtain ⟨l, ls, hl, _, rfl⟩ := (isHostname_iff h).mp hh
  obtain ⟨c, t, rfl, hc⟩ := validLabel_head l hl
  exact ⟨c, _, rfl, hc⟩

theorem hostname_last (h : Str) (hh : isHostname h = true) :
    ∃ t c, h = t ++ [c] ∧ isAlnum c = true := by
  obtain ⟨l, ls, hl, hls, rfl⟩ := (isHostname_iff h).mp hh
  rcases List.eq_nil_or_concat ls with rfl | ⟨ls1, l1, hls1⟩
  · obtain ⟨t, c, rfl, hc⟩ := validLabel_last l hl
    exact ⟨t, c, by simp, hc⟩
  · rw [List.concat_eq_append] at hls1
    subst hls1
    obtain ⟨t, c, rfl, hc⟩ := validLabel_last l1 (hls l1 (by simp))
    exact ⟨l ++ ls1.flatMap (fun x => '.' :: x) ++ '.' :: t, c, by simp, hc⟩

theorem hostname_ne_nil (h : Str) (hh : isHostname h = true) : h ≠ [] := by
  obtain ⟨c, t, rfl, _⟩ := hostname_head h hh
  simp

/-- A string without a colon does not start with a protocol. -/
theorem no_protocol_of_no_colon (s : Str) (h : ':' ∉ s) :
    httpPrefix.isPrefixOf s = false ∧ httpsPrefix.isPrefixOf s = false := by
  constructor
  · rw [Bool.eq_false_iff]
    intro hp
    obtain ⟨t, rfl⟩ := List.isPrefixOf_iff_prefix.mp hp
    exact h (by simp [httpPrefix_eq])
  · rw [Bool.eq_false_iff]
    intro hp
    obtain ⟨t, rfl⟩ := List.isPrefixOf_iff_prefix.mp hp
    exact h (by simp [httpsPrefix_eq])

theorem hostname_no_colon (h : Str) (hh : isHostname h = true) (sl : Str)
    (hsl : sl = [] ∨ sl = ['/']) : ':' ∉ h ++ sl := by
  intro hmem
  rcases List.mem_append.mp hmem with hc | hc
  · have := hostname_chars h hh ':' hc
    revert this
    decide
  · rcases hsl with rfl | rfl <;> simp at hc

theorem stripProtocol_http (s : Str) : stripProtocol (httpPrefix ++ s) = s := by
  simp [stripProtocol_eq, httpPrefix_eq]

theorem stripProtocol_https (s : Str) : stripProtocol (httpsPrefix ++ s) = s := by
  simp [stripProtocol_eq, httpPrefix_eq, httpsPrefix_eq]

theorem stripProtocol_no_colon (s : Str) (h : ':' ∉ s) : stripProtocol s = s := by
  obtain ⟨h1, h2⟩ := no_protocol_of_no_colon s h
  simp [stripProtocol_eq, h1, h2]

theorem stripTrailingSlash_slash (s : Str) : stripTrailingSlash (s ++ ['/']) = s := by
  simp [stripTrailingSlash_eq]

theorem stripTrailingSlash_hostname (h : Str) (hh : isHostname h = true) :
    stripTrailingSlash h = h := by
  obtain ⟨t, c, rfl, hc⟩ := hostname_last h hh
  have : c ≠ '/' := by rintro rfl; revert hc; decide
  simp [stripTrailingSlash_eq, this]

/-- Stripping the protocol and the trailing slash recovers the hostname. -/
theorem clean_form (h : Str) (hh : isHostname h = true) (p sl : Str) (hp : IsProtocolPart p)
    (hsl : IsSlashPart sl) : stripTrailingSlash (stripProtocol (p ++ h ++ sl)) = h := by
  have h1 : stripProtocol (p ++ h ++ sl) = h ++ sl := by
    rcases hp with rfl | rfl | rfl
    · exact stripProtocol_no_colon _ (hostname_no_colon h hh sl hsl)
    · rw [List.append_assoc]; exact stripProtocol_http _
    · rw [List.append_assoc]; exact stripProtocol_https _
  rw [h1]
  rcases hsl with rfl | rfl
  · rw [List.append_nil]; exact stripTrailingSlash_hostname h hh
  · exact stripTrailingSlash_slash h

theorem hasProtocol_form (h : Str) (hh : isHostname h = true) (p sl : Str)
    (hp : IsProtocolPart p) (hsl : IsSlashPart sl) :
    hasProtocol (p ++ h ++ sl) = !p.isEmpty := by
  rcases hp with rfl | rfl | rfl
  · obtain ⟨h1, h2⟩ := no_protocol_of_no_colon _ (hostname_no_colon h hh sl hsl)
    simp [hasProtocol, startsWith, h1, h2]
  · simp [hasProtocol, startsWith, httpPrefix_eq]
  · simp [hasProtocol, startsWith, httpPrefix_eq, httpsPrefix_eq]

theorem trim_form (h : Str) (hh : isHostname h = true) (p sl : Str) (hp : IsProtocolPart p)
    (hsl : IsSlashPart sl) : trim (p ++ h ++ sl) = p ++ h ++ sl := by
  obtain ⟨c, t, rfl, hc⟩ := hostname_head h hh
  obtain ⟨t1, c1, ht1, hc1⟩ := hostname_last (c :: t) hh
  apply trim_eq_self
  · intro x hx
    rcases hp with rfl | rfl | rfl
    · simp at hx; subst hx; exact isAlnum_not_trim _ hc
    · simp [httpPrefix_eq] at hx; subst hx; decide
    · simp [httpsPrefix_eq] at hx; subst hx; decide
  · intro x hx
    rcases hsl with rfl | rfl
    · rw [List.append_nil, ht1, ← List.append_assoc, List.getLast?_append] at hx
      simp at hx; subst hx; exact isAlnum_not_trim _ hc1
    · rw [List.getLast?_append] at hx
      simp at hx; subst hx; decide

theorem validateDomain_form (h : Str) (hh : isHostname h = true) (p sl : Str)
    (hp : IsProtocolPart p) (hsl : IsSlashPart sl) (isSource : Bool) :
    validateDomain (p ++ h ++ sl) isSource =
      if isSource || !p.isEmpty then .ok
      else .invalid "Target domain must include protocol (http:// or https://)" := by
  have hne : p ++ h ++ sl ≠ [] := by
    have := hostname_ne_nil h hh
    simp [this]
  have hprot := hasProtocol_form h hh p sl hp hsl
  simp only [hasProtocol] at hprot
  simp only [validateDomain, hne, if_false, clean_form h hh p sl hp hsl, hostname_ne_nil h hh,
    domainRegex_test, hh, Bool.not_true, Bool.false_eq_true]
  generalize startsWith (p ++ h ++ sl) httpPrefix = a at hprot ⊢
  generalize startsWith (p ++ h ++ sl) httpsPrefix = b at hprot ⊢
  cases isSource <;> cases a <;> cases b <;> cases hpe : p.isEmpty <;> simp_all

theorem normalizeDomain_form (h : Str) (hh : isHostname h = true) (p sl : Str)
    (hp : IsProtocolPart p) (hsl : IsSlashPart sl) :
    normalizeDomain (p ++ h ++ sl) = toLowerCase h := by
  rw [normalizeDomain, clean_form h hh p sl hp hsl]

theorem head?_dropWhile_false (q : Char → Bool) (l : Str) (c : Char)
    (h : (l.dropWhile q).head? = some c) : q c = false := by
  induction l with
  | nil => simp at h
  | cons x xs ih =>
    by_cases hx : q x = true
    · rw [List.dropWhile_cons_of_pos hx] at h; exact ih h
    · rw [List.dropWhile_cons_of_neg hx] at h
      simp only [List.head?_cons, Option.some.injEq] at h
      subst h
      simpa using hx

/-- Trimming twice is trimming once. -/
theorem trim_trim (s : Str) : trim (trim s) = trim s := by
  apply trim_eq_self
  · intro c hc
    have hpre : trim s <+: s.dropWhile isTrimChar := by
      have hsuf := List.reverse_prefix.mpr
        (List.dropWhile_suffix isTrimChar (l := (s.dropWhile isTrimChar).reverse))
      rwa [List.reverse_reverse] at hsuf
    obtain ⟨t, ht⟩ := hpre
    cases hz : trim s with
    | nil => rw [hz] at hc; simp at hc
    | cons x xs =>
      rw [hz] at hc ht
      simp only [List.head?_cons, Option.some.injEq] at hc
      subst hc
      exact head?_dropWhile_false isTrimChar s x (by rw [← ht]; rfl)
  · intro c hc
    rw [trim, List.getLast?_reverse] at hc
    exact head?_dropWhile_false isTrimChar _ c hc

theorem mathMax_mem (x : Int) (xs : List Int) : mathMax x xs ∈ x :: xs := by
  induction xs generalizing x with
  | nil => simp [mathMax]
  | cons y ys ih =>
    have := ih (max x y)
    simp only [mathMax, List.mem_cons] at this ⊢
    rcases this with h | h
    · rcases max_choice x y with hm | hm
      · left; rw [h, hm]
      · right; left; rw [h, hm]
    · right; right; exact h

theorem le_mathMax (x : Int) (xs : List Int) : ∀ y ∈ x :: xs, y ≤ mathMax x xs := by
  induction xs generalizing x with
  | nil => simp [mathMax]
  | cons z zs ih =>
    intro y hy
    have h1 := ih (max x z)
    simp only [mathMax]
    rcases List.mem_cons.mp hy with rfl | hy
    · exact le_trans (le_max_left _ _) (h1 _ (List.mem_cons_self _ _))
    · rcases List.mem_cons.mp hy with rfl | hy
      · exact le_trans (le_max_right _ _) (h1 _ (List.mem_cons_self _ _))
      · exact h1 _ (List.mem_cons_of_mem _ hy)

/-- The id that `generateRuleId` returns: 1 on the empty rule set, otherwise one more
than the greatest id. -/
theorem generateRuleId_spec (R : List Rule) :
    (R = [] → generateRuleId R = 1) ∧
    (R ≠ [] → (∃ r ∈ R, generateRuleId R = r.id + 1) ∧ ∀ r ∈ R, r.id < generateRuleId R) := by
  cases R with
  | nil => exact ⟨fun _ => rfl, fun h => absurd rfl h⟩
  | cons r rs =>
    refine ⟨fun h => by simp at h, fun _ => ?_⟩
    have hid : generateRuleId (r :: rs) = mathMax r.id (rs.map (fun r => r.id)) + 1 := rfl
    have hmem := mathMax_mem r.id (rs.map (fun r => r.id))
    have hle := le_mathMax r.id (rs.map (fun r => r.id))
    rw [hid]
    constructor
    · rw [← List.map_cons (fun r : Rule => r.id) r rs] at hmem
      obtain ⟨r1, hr1, he⟩ := List.mem_map.mp hmem
      exact ⟨r1, hr1, by rw [he]⟩
    · intro r1 hr1
      have := hle r1.id (by
        rw [← List.map_cons (fun r : Rule => r.id) r rs]
        exact List.mem_map_of_mem _ hr1)
      omega

theorem checkDuplicateSource_false (src : Str) (R : List Rule)
    (h : ∀ r ∈ R, normalizeDomain r.sourceDomain ≠ src) : checkDuplicateSource src R = false := by
  rw [Bool.eq_false_iff]
  intro hdup
  simp only [checkDuplicateSource, List.any_eq_true, decide_eq_true_eq] at hdup
  obtain ⟨r, hr, he⟩ := hdup
  exact h r hr he

theorem valid_eq_true (v : Validation) (h : v.valid = true) : v = .ok := by
  cases v with
  | ok => rfl
  | invalid e => simp [Validation.valid] at h

theorem filter_own_ids (A : List Descriptor) :
    A.filter (fun d => !(A.map (fun rule => rule.id)).contains d.id) = [] := by
  rw [List.filter_eq_nil_iff]
  intro d hd
  have := List.mem_map_of_mem (fun rule : Descriptor => rule.id) hd
  simpa using ⟨d, hd, rfl⟩

/-! ## The pattern of `buildRegexPattern` -/

theorem parseFrom_append (p : PState) (a b : Str) :
    parseFrom p (a ++ b) = (parseFrom p a).bind (fun p1 => parseFrom p1 b) := by
  induction a generalizing p with
  | nil => rfl
  | cons c cs ih =>
    simp only [List.cons_append, parseFrom]
    cases parseStep p c with
    | none => rfl
    | some p1 => exact ih p1

theorem label_char_plain (c : Char) (h : (isAlnum c || c == '-') = true) :
    c ≠ '\\' ∧ c ≠ '^' ∧ c ≠ '$' ∧ c ≠ '.' ∧ c ≠ '[' ∧ c ≠ '(' ∧ c ≠ ')' ∧ c ≠ '?' ∧
    c ≠ '*' ∧ c ≠ '+' ∧ c ≠ ']' ∧ c ≠ '{' ∧ c ≠ '}' ∧ c ≠ '|' := by
  refine ⟨?_, ?_, ?_, ?_, ?_, ?_, ?_, ?_, ?_, ?_, ?_, ?_, ?_, ?_⟩ <;>
    (rintro rfl; revert h; decide)

theorem parseStep_label_char (outer : List (Nat × List Re)) (top : List Re) (g : Nat)
    (q : Bool) (c : Char) (h : (isAlnum c || c == '-') = true) :
    parseStep ⟨outer, top, g, false, q, none⟩ c
      = some ⟨outer, .chr c :: top, g, false, true, none⟩ := by
  obtain ⟨h1, h2, h3, h4, h5, h6, h7, h8, h9, h10, h11, h12, h13, h14⟩ := label_char_plain c h
  simp [parseStep, h1, h2, h3, h4, h5, h6, h7, h8, h9, h10, h11, h12, h13, h14]

theorem parseFrom_escapeDots (d : Str)
    (hd : ∀ c ∈ d, (isAlnum c || c == '-' || c == '.') = true)
    (outer : List (Nat × List Re)) (top : List Re) (g : Nat) (tail : Str) :
    parseFrom ⟨outer, top, g, false, true, none⟩ (escapeDots d ++ tail)
      = parseFrom ⟨outer, (d.map Re.chr).reverse ++ top, g, false, true, none⟩ tail := by
  induction d generalizing top with
  | nil => rfl
  | cons c cs ih =>
    have hcs : ∀ x ∈ cs, (isAlnum x || x == '-' || x == '.') = true :=
      fun x hx => hd x (List.mem_cons_of_mem _ hx)
    have hc := hd c (List.mem_cons_self _ _)
    by_cases hdot : c = '.'
    · subst hdot
      have e : escapeDots ('.' :: cs) ++ tail = '\\' :: '.' :: (escapeDots cs ++ tail) := by
        simp [escapeDots_eq, List.flatMap_cons]
      rw [e]
      have s1 : parseStep ⟨outer, top, g, false, true, none⟩ '\\'
          = some ⟨outer, top, g, true, true, none⟩ := by simp [parseStep]
      have s2 : parseStep ⟨outer, top, g, true, true, none⟩ '.'
          = some ⟨outer, .chr '.' :: top, g, false, true, none⟩ := by
        simp [parseStep, isSyntaxChar]
      simp only [parseFrom, s1, s2, ih hcs]
      simp
    · have hc1 : (isAlnum c || c == '-') = true := by
        simp only [Bool.or_eq_true, beq_iff_eq] at hc ⊢
        rcases hc with h0 | h0
        · exact h0
        · exact absurd h0 hdot
      have e : escapeDots (c :: cs) ++ tail = c :: (escapeDots cs ++ tail) := by
        simp [escapeDots_eq, List.flatMap_cons, hdot]
      rw [e]
      simp only [parseFrom, parseStep_label_char outer top g true c hc1, ih hcs]
      simp

/-- The pattern built for a valid hostname denotes `filterRe`. -/
theorem parse_buildRegexPattern (d : Str) (hd : isHostname d = true) :
    parseRegex (buildRegexPattern d) = some (filterRe d) := by
  have h1 : stripTrailingSlash (stripProtocol d) = d := by
    simpa using clean_form d hd [] [] (Or.inl rfl) (Or.inl rfl)
  have hpre : parseFrom ⟨[], [], 1, false, false, none⟩ "^https?://".toList
      = some ⟨[], [.chr '/', .chr '/', .chr ':', .opt (.chr 's'), .chr 'p', .chr 't', .chr 't',
          .chr 'h', .bol], 1, false, true, none⟩ := by decide
  have hsuf : ∀ top : List Re, parseFrom ⟨[], top, 1, false, true, none⟩ "(.*)".toList
      = some ⟨[], .group 1 (.star .any) :: top, 2, false, true, none⟩ := by
    intro top
    have e : "(.*)".toList = ['(', '.', '*', ')'] := rfl
    simp [e, parseFrom, parseStep, seqAll]
  simp only [buildRegexPattern, h1, parseRegex]
  rw [List.append_assoc, parseFrom_append, hpre, Option.some_bind,
    parseFrom_escapeDots d (hostname_chars d hd), hsuf]
  simp [filterRe]

/-- What the pattern of `buildRegexPattern` matches: the URLs that start with
`http://` or `https://` followed by the hostname, whatever follows it. -/
theorem buildRegexPattern_test (d u : Str) (hd : isHostname d = true) :
    regexTest (buildRegexPattern d) u = true ↔
      (httpPrefix ++ d) <+: u ∨ (httpsPrefix ++ d) <+: u := by
  simp only [regexTest, parse_buildRegexPattern d hd]
  have hre : filterRe d = .seq .bol (seqAll ("http".toList.map Re.chr ++
      (Re.opt (.chr 's') :: (("://".toList ++ d).map Re.chr ++ [Re.group 1 (.star .any)])))) :=
    rfl
  rw [hre, test_bol]
  have hlast : ∀ m : Str, m ∈ (seqAll [Re.group 1 (.star .any)]).runR u.length m := by
    intro m
    simp only [seqAll, mem_runR_group, mem_runR_star]
    exact Chain.done _
  constructor
  · intro h
    obtain ⟨x, hx⟩ := List.exists_mem_of_ne_nil _ h
    obtain ⟨m1, rfl, hx⟩ := (mem_runR_lits _ _ _ _ _).mp hx
    obtain ⟨m2, hm2, hx⟩ := (mem_runR_seqAll_cons _ _ _ _ _).mp hx
    obtain ⟨m3, rfl, _⟩ := (mem_runR_lits _ _ _ _ _).mp hx
    rcases (mem_runR_opt _ _ _ _).mp hm2 with ⟨hs, _⟩ | rfl
    · rw [mem_runR_chr] at hs
      subst hs
      exact Or.inr ⟨m3, by simp [httpsPrefix_eq]⟩
    · exact Or.inl ⟨m3, by simp [httpPrefix_eq]⟩
  · rintro (⟨m, rfl⟩ | ⟨m, rfl⟩)
    · apply List.ne_nil_of_mem
      refine (mem_runR_lits _ "http".toList _ _ m).mpr ⟨"://".toList ++ d ++ m,
        by simp [httpPrefix_eq], (mem_runR_seqAll_cons _ _ _ _ _).mpr
          ⟨"://".toList ++ d ++ m, (mem_runR_opt _ _ _ _).mpr (Or.inr rfl),
            (mem_runR_lits _ _ _ _ _).mpr ⟨m, rfl, hlast m⟩⟩⟩
    · apply List.ne_nil_of_mem
      refine (mem_runR_lits _ "http".toList _ _ m).mpr ⟨'s' :: ("://".toList ++ d ++ m),
        by simp [httpsPrefix_eq], (mem_runR_seqAll_cons _ _ _ _ _).mpr
          ⟨"://".toList ++ d ++ m,
            (mem_runR_opt _ _ _ _).mpr (Or.inl ⟨(mem_runR_chr _ _ _ _).mpr rfl, by simp⟩),
            (mem_runR_lits _ _ _ _ _).mpr ⟨m, rfl, hlast m⟩⟩⟩

/-! ## The claims -/

/-- C1: when the storage read, the listing of the active descriptors and the host-engine
update all succeed, the active descriptor set after `rebuildRules()` is exactly the
list of `buildRedirectRule(r)` for the stored rules `r`, in order, whatever the prior
active set was. -/
theorem rebuildRules_replaces_all (host : Host) (R : List Rule) (A : List Descriptor)
    (hget : host.storageGetFails = false) (hlist : host.getDynamicRulesFails = false)
    (hupd : (hostUpdateDynamicRules host A (A.map (fun d => d.id))
      (R.map (fun r => buildRedirectRule r))).isSome = true) :
    rebuildRules host (some R) A = R.map (fun r => buildRedirectRule r) := by
  simp only [hostUpdateDynamicRules, filter_own_ids] at hupd
  have hacc : host.accepts [] (R.map (fun r => buildRedirectRule r)) = true := by
    by_contra hne
    simp [hne] at hupd
  have hres : hostUpdateDynamicRules host A (A.map (fun d => d.id))
      (R.map (fun r => buildRedirectRule r)) = some (R.map (fun r => buildRedirectRule r)) := by
    simp only [hostUpdateDynamicRules, filter_own_ids, hacc, if_true, List.nil_append]
  simp only [rebuildRules, loadRulesFromStorage, updateDynamicRules, hget, hlist,
    Bool.false_eq_true, if_false, Option.getD_some, hres]

theorem rebuildRules_replaces_all_witness :
    rebuildRules checkingHost (some [⟨1, "a.com".toList, "http://b.com".toList⟩])
        [buildRedirectRule ⟨7, "old.org".toList, "https://new.org".toList⟩]
      = [buildRedirectRule ⟨1, "a.com".toList, "http://b.com".toList⟩] :=
  rebuildRules_replaces_all checkingHost [⟨1, "a.com".toList, "http://b.com".toList⟩]
    [buildRedirectRule ⟨7, "old.org".toList, "https://new.org".toList⟩] rfl rfl (by decide)

/-- C10: `deleteRule(id)` persists exactly the stored rules whose id differs from `id`,
in their original order and unmodified, and reports success; when no stored rule has
that id the persisted rule set is the stored one and success is still reported. -/
theorem deleteRule_removes_id (page : Page) (R : List Rule) (id : Int)
    (hR : page.stored.getD [] = R) :
    (deleteRule ⟨false, false⟩ id page).stored = some (R.filter (fun r => decide (r.id ≠ id))) ∧
    (R.filter (fun r => decide (r.id ≠ id))).Sublist R ∧
    (deleteRule ⟨false, false⟩ id page).status = some ("Rule deleted successfully", "success") ∧
    ((∀ r ∈ R, r.id ≠ id) → (deleteRule ⟨false, false⟩ id page).stored = some R) := by
  have hstored : (deleteRule ⟨false, false⟩ id page).stored
      = some (R.filter (fun r => decide (r.id ≠ id))) := by
    simp [deleteRule, loadRules, showStatus, renderRulesList, hR]
  refine ⟨hstored, List.filter_sublist _, ?_, ?_⟩
  · simp [deleteRule, loadRules, showStatus, renderRulesList]
  · intro hno
    rw [hstored, List.filter_eq_self.mpr]
    intro r hr
    simpa using hno r hr

theorem deleteRule_removes_id_witness :
    (deleteRule ⟨false, false⟩ 3
        (Page.initial (some [⟨1, "a.com".toList, "http://b.com".toList⟩,
          ⟨3, "c.com".toList, "https://d.com".toList⟩,
          ⟨4, "e.com".toList, "http://f.com".toList⟩]))).stored
      = some [⟨1, "a.com".toList, "http://b.com".toList⟩,
          ⟨4, "e.com".toList, "http://f.com".toList⟩] :=
  (deleteRule_removes_id
    (Page.initial (some [⟨1, "a.com".toList, "http://b.com".toList⟩,
      ⟨3, "c.com".toList, "https://d.com".toList⟩,
      ⟨4, "e.com".toList, "http://f.com".toList⟩])) _ 3 rfl).1

theorem jsSucc_of_safe (n : Int) (h1 : -9007199254740992 < n) (h2 : n < 9007199254740992) :
    jsSucc n = n + 1 := by
  have h : -9007199254740993 ≤ n ∧ n < 9007199254740992 := ⟨by omega, h2⟩
  simp only [jsSucc, h, and_self, if_true]

/-- On rule sets whose ids are below 2^53 in absolute value the arithmetic of JavaScript
numbers is exact: both embeddings of `generateRuleId` agree. -/
theorem generateRuleIdJs_eq (R : List Rule)
    (hsafe : ∀ r ∈ R, -9007199254740992 < r.id ∧ r.id < 9007199254740992) :
    generateRuleIdJs R = generateRuleId R := by
  cases R with
  | nil => rfl
  | cons r rs =>
    have hmem := mathMax_mem r.id (rs.map (fun r => r.id))
    rw [← List.map_cons (fun r : Rule => r.id) r rs] at hmem
    obtain ⟨r1, hr1, he⟩ := List.mem_map.mp hmem
    have hb := hsafe r1 hr1
    rw [he] at hb
    show jsSucc (mathMax r.id (rs.map (fun r => r.id)))
      = mathMax r.id (rs.map (fun r => r.id)) + 1
    exact jsSucc_of_safe _ hb.1 hb.2

/-- C6, at the failing input: for a rule set whose greatest id is 2^53, the sum
`maxId + 1` on JavaScript numbers is 2^53 again, so `generateRuleId` returns the id
that is already in the rule set and not one more than the greatest id; the ids of the
stored rule and of the rule that `addRule` would append are not distinct. -/
theorem generateRuleId_repeats_id_at_two_pow_53 :
    generateRuleIdJs [⟨9007199254740992, "a.com".toList, "http://b.com".toList⟩]
      = 9007199254740992 ∧
    generateRuleIdJs [⟨9007199254740992, "a.com".toList, "http://b.com".toList⟩]
      ≠ 9007199254740992 + 1 ∧
    ¬ ([(⟨9007199254740992, "a.com".toList, "http://b.com".toList⟩ : Rule),
        ⟨generateRuleIdJs [⟨9007199254740992, "a.com".toList, "http://b.com".toList⟩],
          "c.com".toList, "http://d.com".toList⟩].map (fun r => r.id)).Nodup ∧
    generateRuleIdJs [⟨1, "a.com".toList, "http://b.com".toList⟩,
        ⟨3, "c.com".toList, "https://d.com".toList⟩] = 4 := by
  decide

/-- C5: `validateDomain(domain, isSource).valid` is true exactly when the domain is
non-empty, what remains after stripping a leading protocol and one trailing slash is a
valid hostname, and the domain is a source or starts with a protocol. A well-formed
target without protocol gets the "must include protocol" message, a non-empty domain
with a malformed remainder gets one of the two format messages, and the empty domain
gets its own message. So `addRule("a.com","b.com")` is rejected with the protocol
message and `addRule("a.com","http://b.com")` succeeds on an empty rule set. -/
theorem validateDomain_accepts_hostnames (domain : Str) (isSource : Bool) :
    ((validateDomain domain isSource).valid = true ↔
      domain ≠ [] ∧ isHostname (stripTrailingSlash (stripProtocol domain)) = true ∧
        (isSource = true ∨ hasProtocol domain = true)) ∧
    (isHostname (stripTrailingSlash (stripProtocol domain)) = true → isSource = false →
      hasProtocol domain = false →
      validateDomain domain isSource
        = .invalid "Target domain must include protocol (http:// or https://)") ∧
    (domain ≠ [] → isHostname (stripTrailingSlash (stripProtocol domain)) = false →
      validateDomain domain isSource = .invalid "Invalid domain format" ∨
      validateDomain domain isSource
        = .invalid "Invalid domain format. Use format: example.com") ∧
    validateDomain [] isSource = .invalid "Domain cannot be empty" ∧
    validateDomain "b.com".toList false
      = .invalid "Target domain must include protocol (http:// or https://)" ∧
    validateDomain "http://b.com".toList false = .ok ∧
    (addRule ⟨false, false⟩ ((Page.initial none).fill "a.com".toList "b.com".toList)).status
      = some ("Target domain must include protocol (http:// or https://)", "error") ∧
    (addRule ⟨false, false⟩ ((Page.initial none).fill "a.com".toList "b.com".toList)).stored
      = none ∧
    (addRule ⟨false, false⟩ ((Page.initial none).fill "a.com".toList "http://b.com".toList)).status
      = some ("Rule added successfully", "success") ∧
    (addRule ⟨false, false⟩ ((Page.initial none).fill "a.com".toList "http://b.com".toList)).stored
      = some [⟨1, "a.com".toList, "http://b.com".toList⟩] := by
  have hnil : isHostname [] = false := by decide
  have hcl : domain = [] → stripTrailingSlash (stripProtocol domain) = [] := by
    rintro rfl; decide
  refine ⟨?_, ?_, ?_, by simp [validateDomain], by decide, by decide, by decide, by decide,
    by decide, by decide⟩
  · by_cases hd : domain = []
    · simp [validateDomain, Validation.valid, hd]
    · by_cases hc : stripTrailingSlash (stripProtocol domain) = []
      · simp [validateDomain, Validation.valid, hd, hc, hnil]
      · cases hh : isHostname (stripTrailingSlash (stripProtocol domain)) <;>
          cases isSource <;> cases ha : startsWith domain httpPrefix <;>
          cases hb : startsWith domain httpsPrefix <;>
          simp [validateDomain, Validation.valid, hd, hc, hh, ha, hb, domainRegex_test,
            hasProtocol]
  · intro hh hs hp
    have hd : domain ≠ [] := fun h0 => by rw [hcl h0, hnil] at hh; cases hh
    have hc : stripTrailingSlash (stripProtocol domain) ≠ [] :=
      fun h0 => by rw [h0, hnil] at hh; cases hh
    simp only [hasProtocol, Bool.or_eq_false_iff] at hp
    simp [validateDomain, hd, hc, hh, hs, hp.1, hp.2, domainRegex_test]
  · intro hd hh
    by_cases hc : stripTrailingSlash (stripProtocol domain) = []
    · left; simp [validateDomain, hd, hc]
    · right; simp [validateDomain, hd, hc, hh, domainRegex_test]

theorem validateDomain_accepts_hostnames_witness :
    (validateDomain "https://my-site.example.org/".toList false).valid = true ∧
    validateDomain "-bad-.com".toList true
      = .invalid "Invalid domain format. Use format: example.com" :=
  ⟨((validateDomain_accepts_hostnames "https://my-site.example.org/".toList false).1).mpr
      ⟨by decide, by decide, Or.inr (by decide)⟩,
    ((validateDomain_accepts_hostnames "-bad-.com".toList true).2.2.1 (by decide)
      (by decide)).resolve_left (by decide)⟩

/-- C4: for a rule whose source is a bare valid hostname, `buildRedirectRule` keeps the
id, sets priority 1 and the ten resource types, builds the filter `^https?://`, the
source with a backslash before every dot, `(.*)`, and the substitution from the target
(minus one trailing slash, with `http://` in front when it has no protocol) followed by
backslash-1. Adding a.com to http://b.com on the empty rule set and rebuilding leaves
exactly one active descriptor, with the filter and substitution of the specification. -/
theorem buildRedirectRule_shape (id : Int) (s t : Str) (hs : isHostname s = true) :
    buildRedirectRule ⟨id, s, t⟩ =
      { id := id
        priority := 1
        actionType := "redirect"
        regexSubstitution :=
          (if hasProtocol t then (if t.getLast? = some '/' then t.dropLast else t)
           else "http://".toList ++ (if t.getLast? = some '/' then t.dropLast else t))
            ++ "\\1".toList
        regexFilter :=
          "^https?://".toList ++ s.flatMap (fun c => if c = '.' then "\\.".toList else [c])
            ++ "(.*)".toList
        resourceTypes :=
          ["main_frame", "sub_frame", "xmlhttprequest", "stylesheet", "script", "image",
           "font", "object", "media", "other"] } ∧
    ∀ A : List Descriptor,
      rebuildRules checkingHost
        (addRule ⟨false, false⟩
          ((Page.initial none).fill "a.com".toList "http://b.com".toList)).stored A
      = [{ id := 1
           priority := 1
           actionType := "redirect"
           regexSubstitution := "http://b.com\\1".toList
           regexFilter := "^https?://a\\.com(.*)".toList
           resourceTypes :=
             ["main_frame", "sub_frame", "xmlhttprequest", "stylesheet", "script", "image",
              "font", "object", "media", "other"] }] := by
  constructor
  · have h1 : stripTrailingSlash (stripProtocol s) = s := by
      simpa using clean_form s hs [] [] (Or.inl rfl) (Or.inl rfl)
    have h2 : "http://".toList = httpPrefix := rfl
    have h3 : "\\.".toList = ['\\', '.'] := rfl
    have h4 : "\\1".toList = ['\\', '1'] := rfl
    have hf : buildRegexPattern s = "^https?://".toList ++ escapeDots s ++ "(.*)".toList := by
      simp only [buildRegexPattern, h1]
    simp only [buildRedirectRule, hf, normalizeTargetDomain, h2, h3, h4,
      escapeDots_eq, resourceTypes, hasProtocol, stripTrailingSlash_eq]
  · intro A
    have hstored : (addRule ⟨false, false⟩
        ((Page.initial none).fill "a.com".toList "http://b.com".toList)).stored
        = some [⟨1, "a.com".toList, "http://b.com".toList⟩] := by decide
    rw [hstored]
    exact rebuildRules_replaces_all checkingHost _ A rfl rfl
      (by simp only [hostUpdateDynamicRules, filter_own_ids]; decide)

theorem buildRedirectRule_shape_witness :
    (buildRedirectRule ⟨5, "www.example.com".toList, "example.org/".toList⟩).regexFilter
      = "^https?://www\\.example\\.com(.*)".toList ∧
    (buildRedirectRule ⟨5, "www.example.com".toList, "example.org/".toList⟩).regexSubstitution
      = "http://example.org\\1".toList := by
  have h := (buildRedirectRule_shape 5 "www.example.com".toList "example.org/".toList
    (by decide)).1
  rw [h]
  decide

/-- C8, as stated, fails: the protocol pattern of `normalizeDomain` is case-sensitive, so
an upper-case protocol is not removed, only lowered. -/
theorem normalizeDomain_keeps_upper_protocol :
    isHostname "Example.com".toList = true ∧
    normalizeDomain "HTTPS://Example.com/".toList = "https://example.com".toList ∧
    normalizeDomain "HTTPS://Example.com/".toList ≠ "example.com".toList := by
  decide

/-- C8, amended: for a valid hostname written in any letter case, optionally preceded by
a lower-case `http://` or `https://` and optionally followed by one trailing slash,
`normalizeDomain` returns the hostname in lower case, without protocol and without
trailing slash. -/
theorem normalizeDomain_strips_and_lowers (h p sl : Str) (hh : isHostname h = true)
    (hp : p = [] ∨ p = "http://".toList ∨ p = "https://".toList)
    (hsl : sl = [] ∨ sl = "/".toList) :
    normalizeDomain (p ++ h ++ sl) = h.map Char.toLower :=
  normalizeDomain_form h hh p sl hp hsl

theorem normalizeDomain_strips_and_lowers_witness :
    normalizeDomain "https://Example.com/".toList = "example.com".toList :=
  normalizeDomain_strips_and_lowers "Example.com".toList "https://".toList "/".toList
    (by decide) (Or.inr (Or.inr rfl)) (Or.inr rfl)

/-- C9: when the source and the target are the same valid hostname up to letter case,
protocol and trailing slash (the target carrying `http://` or `https://`), `addRule` is
rejected with the "must be different" message and the stored rule set is left
unchanged, whatever it holds. -/
theorem addRule_rejects_same_domain (f : Faults) (page : Page) (h1 h2 p1 sl1 p2 sl2 : Str)
    (hh1 : isHostname h1 = true) (hh2 : isHostname h2 = true)
    (hcase : h1.map Char.toLower = h2.map Char.toLower)
    (hp1 : p1 = [] ∨ p1 = "http://".toList ∨ p1 = "https://".toList)
    (hsl1 : sl1 = [] ∨ sl1 = "/".toList)
    (hp2 : p2 = "http://".toList ∨ p2 = "https://".toList)
    (hsl2 : sl2 = [] ∨ sl2 = "/".toList)
    (hsrc : page.sourceValue = p1 ++ h1 ++ sl1) (htgt : page.targetValue = p2 ++ h2 ++ sl2) :
    (addRule f page).status = some ("Source and target domains must be different", "error") ∧
    (addRule f page).stored = page.stored := by
  have hp2a : IsProtocolPart p2 := Or.inr hp2
  have hp2ne : p2.isEmpty = false := by rcases hp2 with rfl | rfl <;> rfl
  have e1 : trim page.sourceValue = p1 ++ h1 ++ sl1 := by
    rw [hsrc]; exact trim_form h1 hh1 p1 sl1 hp1 hsl1
  have e2 : trim page.targetValue = p2 ++ h2 ++ sl2 := by
    rw [htgt]; exact trim_form h2 hh2 p2 sl2 hp2a hsl2
  have v1 : validateDomain (p1 ++ h1 ++ sl1) true = .ok := by
    rw [validateDomain_form h1 hh1 p1 sl1 hp1 hsl1]; rfl
  have v2 : validateDomain (p2 ++ h2 ++ sl2) false = .ok := by
    rw [validateDomain_form h2 hh2 p2 sl2 hp2a hsl2]; simp [hp2ne]
  have n1 := normalizeDomain_form h1 hh1 p1 sl1 hp1 hsl1
  have n2 := normalizeDomain_form h2 hh2 p2 sl2 hp2a hsl2
  have hn : normalizeDomain (p1 ++ h1 ++ sl1) = normalizeDomain (p2 ++ h2 ++ sl2) := by
    rw [n1, n2]; exact hcase
  simp only [addRule, e1, e2, v1, v2, hn, if_true, showStatus, and_self]

theorem addRule_rejects_same_domain_witness :
    (addRule ⟨false, false⟩
        ((Page.initial none).fill "x.com".toList "http://x.com".toList)).status
      = some ("Source and target domains must be different", "error") :=
  (addRule_rejects_same_domain ⟨false, false⟩
    ((Page.initial none).fill "x.com".toList "http://x.com".toList)
    "x.com".toList "x.com".toList [] [] "http://".toList [] (by decide) (by decide) rfl
    (Or.inl rfl) (Or.inl rfl) (Or.inl rfl) (Or.inl rfl) rfl rfl).1

/-- C7, as stated, fails: a second source written with an upper-case protocol does not
reach the duplicate check, it is rejected by validation with a format message. -/
theorem addRule_upper_protocol_format_error :
    (addRule ⟨false, false⟩
        ((Page.initial (some [⟨1, "a.com".toList, "http://b.com".toList⟩])).fill
          "HTTP://A.com/".toList "http://c.com".toList)).status
      = some ("Invalid domain format. Use format: example.com", "error") ∧
    (addRule ⟨false, false⟩
        ((Page.initial (some [⟨1, "a.com".toList, "http://b.com".toList⟩])).fill
          "HTTP://A.com/".toList "http://c.com".toList)).status
      ≠ some ("Rule for this domain already exists", "error") := by
  decide

/-- C7, amended: when the stored rule set holds a rule whose source is the valid hostname
`d`, a second `addRule` whose source is `d` in any letter case, with or without a
lower-case protocol and with or without a trailing slash, together with a valid target
different from `d`, is rejected with the "already exists" message and the stored rule
set is left unchanged. -/
theorem addRule_rejects_duplicate_source (f : Faults) (page : Page) (d h p sl : Str)
    (hget : f.getFails = false)
    (hd : isHostname d = true) (hh : isHostname h = true)
    (hcase : h.map Char.toLower = d.map Char.toLower)
    (hp : p = [] ∨ p = "http://".toList ∨ p = "https://".toList)
    (hsl : sl = [] ∨ sl = "/".toList)
    (hmem : ∃ r ∈ page.stored.getD [], r.sourceDomain = d)
    (hsrc : page.sourceValue = p ++ h ++ sl)
    (ht : (validateDomain (trim page.targetValue) false).valid = true)
    (hne : normalizeDomain (trim page.targetValue) ≠ d.map Char.toLower) :
    (addRule f page).status = some ("Rule for this domain already exists", "error") ∧
    (addRule f page).stored = page.stored := by
  have e1 : trim page.sourceValue = p ++ h ++ sl := by
    rw [hsrc]; exact trim_form h hh p sl hp hsl
  have v1 : validateDomain (p ++ h ++ sl) true = .ok := by
    rw [validateDomain_form h hh p sl hp hsl]; rfl
  have v2 := valid_eq_true _ ht
  have n1 : normalizeDomain (p ++ h ++ sl) = d.map Char.toLower := by
    rw [normalizeDomain_form h hh p sl hp hsl]; exact hcase
  have hne2 : ¬ d.map Char.toLower = normalizeDomain (trim page.targetValue) :=
    fun h0 => hne h0.symm
  have hdup : checkDuplicateSource (d.map Char.toLower) (page.stored.getD []) = true := by
    obtain ⟨r, hr, hrd⟩ := hmem
    simp only [checkDuplicateSource, List.any_eq_true, decide_eq_true_eq]
    refine ⟨r, hr, ?_⟩
    rw [hrd]
    simpa using normalizeDomain_form d hd [] [] (Or.inl rfl) (Or.inl rfl)
  simp only [addRule, e1, v1, v2, n1, hne2, if_false, loadRules, hget, Bool.false_eq_true,
    hdup, if_true, showStatus, renderRulesList, and_self]

theorem addRule_rejects_duplicate_source_witness :
    (addRule ⟨false, false⟩
        ((Page.initial (some [⟨1, "a.com".toList, "http://b.com".toList⟩])).fill
          "http://A.com/".toList "http://c.com".toList)).status
      = some ("Rule for this domain already exists", "error") :=
  (addRule_rejects_duplicate_source ⟨false, false⟩
    ((Page.initial (some [⟨1, "a.com".toList, "http://b.com".toList⟩])).fill
      "http://A.com/".toList "http://c.com".toList)
    "a.com".toList "A.com".toList "http://".toList "/".toList rfl (by decide) (by decide)
    (by decide) (Or.inr (Or.inl rfl)) (Or.inr rfl) ⟨_, List.mem_singleton.mpr rfl, rfl⟩ rfl
    (by decide) (by decide)).1

/-- C2, at the failing input: `e` is a valid hostname that `addRule` stores as a source,
and the pattern that `buildRegexPattern` builds for it matches a URL on the different
host `evil-e`, with the rest of that host name at the start of group 1. -/
theorem buildRegexPattern_matches_evil_prefix :
    isHostname "e".toList = true ∧
    (addRule ⟨false, false⟩ ((Page.initial none).fill "e".toList "http://b.com".toList)).stored
      = some [⟨1, "e".toList, "http://b.com".toList⟩] ∧
    buildRegexPattern "e".toList = "^https?://e(.*)".toList ∧
    regexTest (buildRegexPattern "e".toList) "http://evil-e/".toList = true ∧
    regexTest (buildRegexPattern "e".toList) "https://evil-e/".toList = true ∧
    regexExec (buildRegexPattern "e".toList) "http://evil-e/".toList
      = some ⟨[], "http://evil-e/".toList, [], [(1, "vil-e/".toList)]⟩ := by
  decide

/-- C3, at the failing input: `a.com` is a valid hostname that `addRule` stores as a
source, and the pattern built for it matches a URL whose host is `a.com.evil.org`, with
the continuation of the host name captured in group 1. -/
theorem buildRegexPattern_matches_longer_host :
    isHostname "a.com".toList = true ∧
    (addRule ⟨false, false⟩
        ((Page.initial none).fill "a.com".toList "http://b.com".toList)).stored
      = some [⟨1, "a.com".toList, "http://b.com".toList⟩] ∧
    buildRegexPattern "a.com".toList = "^https?://a\\.com(.*)".toList ∧
    regexTest (buildRegexPattern "a.com".toList) "http://a.com.evil.org/".toList = true ∧
    regexExec (buildRegexPattern "a.com".toList) "http://a.com.evil.org/".toList
      = some ⟨[], "http://a.com.evil.org/".toList, [], [(1, ".evil.org/".toList)]⟩ := by
  decide


/-! ## Lower case and validated domains -/

theorem toLower_cases (c : Char) :
    (65 ≤ c.toNat ∧ c.toNat ≤ 90 ∧ c.toLower = Char.ofNat (c.toNat + 32)) ∨
    (¬ (65 ≤ c.toNat ∧ c.toNat ≤ 90) ∧ c.toLower = c) := by
  by_cases h : 65 ≤ c.toNat ∧ c.toNat ≤ 90
  · left; exact ⟨h.1, h.2, by simp [Char.toLower, h]⟩
  · right; exact ⟨h, by simp [Char.toLower, h]⟩

theorem ofNat_upper (n : Nat) (h1 : 65 ≤ n) (h2 : n ≤ 90) :
    isAlnum (Char.ofNat (n + 32)) = true ∧
      (Char.ofNat (n + 32)).toLower = Char.ofNat (n + 32) := by
  interval_cases n <;> decide

theorem isAlnum_toLower (c : Char) (h : isAlnum c = true) : isAlnum c.toLower = true := by
  rcases toLower_cases c with ⟨h1, h2, e⟩ | ⟨_, e⟩
  · rw [e]; exact (ofNat_upper _ h1 h2).1
  · rw [e]; exact h

theorem toLower_toLower (c : Char) : c.toLower.toLower = c.toLower := by
  rcases toLower_cases c with ⟨h1, h2, e⟩ | ⟨_, e⟩
  · rw [e]; exact (ofNat_upper _ h1 h2).2
  · rw [e, e]

theorem toLowerCase_toLowerCase (s : Str) : toLowerCase (toLowerCase s) = toLowerCase s := by
  simp [toLowerCase, toLower_toLower]

theorem labelChar_toLower (c : Char) (h : (isAlnum c || c == '-') = true) :
    (isAlnum c.toLower || c.toLower == '-') = true := by
  simp only [Bool.or_eq_true, beq_iff_eq] at h ⊢
  rcases h with h | rfl
  · exact Or.inl (isAlnum_toLower c h)
  · exact Or.inr (by decide)

theorem validLabel_lower (l : Str) (h : validLabel l = true) :
    validLabel (l.map Char.toLower) = true := by
  rcases (validLabel_iff l).mp h with ⟨c, hc, rfl⟩ | ⟨c, w, c1, hc, hw, hc1, rfl⟩
  · exact (validLabel_iff _).mpr (Or.inl ⟨c.toLower, isAlnum_toLower c hc, rfl⟩)
  · refine (validLabel_iff _).mpr (Or.inr ⟨c.toLower, w.map Char.toLower, c1.toLower,
      isAlnum_toLower c hc, ?_, isAlnum_toLower c1 hc1, by simp⟩)
    intro y hy
    obtain ⟨z, hz, rfl⟩ := List.mem_map.mp hy
    exact labelChar_toLower z (hw z hz)

theorem map_toLower_dotted (ls : List Str) :
    (ls.flatMap (fun x => '.' :: x)).map Char.toLower
      = (ls.map (fun l => l.map Char.toLower)).flatMap (fun x => '.' :: x) := by
  induction ls with
  | nil => rfl
  | cons l ls ih =>
    have hdot : Char.toLower '.' = '.' := by decide
    simp [List.flatMap_cons, ih, hdot]

/-- Lowering a valid hostname gives a valid hostname. -/
theorem hostname_lower (h : Str) (hh : isHostname h = true) :
    isHostname (toLowerCase h) = true := by
  obtain ⟨l, ls, hl, hls, rfl⟩ := (isHostname_iff h).mp hh
  refine (isHostname_iff _).mpr ⟨l.map Char.toLower, ls.map (fun l => l.map Char.toLower),
    validLabel_lower l hl, ?_, ?_⟩
  · intro l1 h1
    obtain ⟨l0, h0, rfl⟩ := List.mem_map.mp h1
    exact validLabel_lower l0 (hls l0 h0)
  · simp only [toLowerCase, List.map_append, map_toLower_dotted]

/-- A domain that passes validation is a valid hostname, optionally preceded by a
lower-case protocol and optionally followed by one slash; a target has the protocol. -/
theorem validateDomain_ok_form (x : Str) (isSource : Bool)
    (hv : validateDomain x isSource = .ok) :
    ∃ p h sl, IsProtocolPart p ∧ IsSlashPart sl ∧ isHostname h = true ∧ x = p ++ h ++ sl ∧
      (isSource = false → p = httpPrefix ∨ p = httpsPrefix) := by
  have hhost : isHostname (stripTrailingSlash (stripProtocol x)) = true := by
    by_contra hne
    have hf : isHostname (stripTrailingSlash (stripProtocol x)) = false := by simpa using hne
    revert hv
    by_cases hx : x = [] <;>
      by_cases hc : stripTrailingSlash (stripProtocol x) = [] <;>
      simp [validateDomain, hx, hc, hf, domainRegex_test]
  have hprot : isSource = false → hasProtocol x = true := by
    intro hs
    by_contra hne
    have hf : hasProtocol x = false := by simpa using hne
    simp only [hasProtocol, Bool.or_eq_false_iff] at hf
    revert hv
    by_cases hx : x = [] <;>
      by_cases hc : stripTrailingSlash (stripProtocol x) = [] <;>
      simp [validateDomain, hx, hc, hhost, hs, hf.1, hf.2, domainRegex_test]
  have hslash : ∀ y : Str, isHostname (stripTrailingSlash y) = true →
      ∃ h sl, IsSlashPart sl ∧ isHostname h = true ∧ y = h ++ sl := by
    intro y hy
    rw [stripTrailingSlash_eq] at hy
    by_cases hl : y.getLast? = some '/'
    · rw [if_pos hl] at hy
      refine ⟨y.dropLast, ['/'], Or.inr rfl, hy, ?_⟩
      have hne : y ≠ [] := by rintro rfl; simp at hl
      have h1 := List.dropLast_append_getLast hne
      have h2 : y.getLast hne = '/' := by
        rw [List.getLast?_eq_getLast _ hne] at hl
        exact Option.some.inj hl
      rw [h2] at h1
      exact h1.symm
    · rw [if_neg hl] at hy
      exact ⟨y, [], Or.inl rfl, hy, by simp⟩
  rw [stripProtocol_eq] at hhost
  by_cases h1 : httpPrefix.isPrefixOf x = true
  · rw [if_pos h1] at hhost
    obtain ⟨t, rfl⟩ := List.isPrefixOf_iff_prefix.mp h1
    rw [List.drop_left] at hhost
    obtain ⟨h, sl, hsl, hh, rfl⟩ := hslash t hhost
    exact ⟨httpPrefix, h, sl, Or.inr (Or.inl rfl), hsl, hh, by simp, fun _ => Or.inl rfl⟩
  · rw [if_neg h1] at hhost
    by_cases h2 : httpsPrefix.isPrefixOf x = true
    · rw [if_pos h2] at hhost
      obtain ⟨t, rfl⟩ := List.isPrefixOf_iff_prefix.mp h2
      rw [List.drop_left] at hhost
      obtain ⟨h, sl, hsl, hh, rfl⟩ := hslash t hhost
      exact ⟨httpsPrefix, h, sl, Or.inr (Or.inr rfl), hsl, hh, by simp, fun _ => Or.inr rfl⟩
    · rw [if_neg h2] at hhost
      obtain ⟨h, sl, hsl, hh, rfl⟩ := hslash x hhost
      refine ⟨[], h, sl, Or.inl rfl, hsl, hh, by simp, fun hs => ?_⟩
      have := hprot hs
      simp only [hasProtocol, startsWith, Bool.or_eq_true] at this
      rcases this with h0 | h0
      · exact absurd h0 h1
      · exact absurd h0 h2

/-- The normal form of a validated domain is a lower-case valid hostname that
`normalizeDomain` leaves unchanged. -/
theorem normalizeDomain_valid (x : Str) (isSource : Bool)
    (hv : validateDomain x isSource = .ok) :
    isHostname (normalizeDomain x) = true ∧
    toLowerCase (normalizeDomain x) = normalizeDomain x ∧
    normalizeDomain (normalizeDomain x) = normalizeDomain x := by
  obtain ⟨p, h, sl, hp, hsl, hh, rfl, _⟩ := validateDomain_ok_form x isSource hv
  rw [normalizeDomain_form h hh p sl hp hsl]
  have hl := hostname_lower h hh
  refine ⟨hl, toLowerCase_toLowerCase h, ?_⟩
  have := normalizeDomain_form (toLowerCase h) hl [] [] (Or.inl rfl) (Or.inl rfl)
  simp only [List.nil_append, List.append_nil] at this
  rw [this, toLowerCase_toLowerCase]

/-! ## Outcomes of `addRule` and the invariants of the rule set -/

/-- The two outcomes of `addRule`: nothing is stored and success is not reported, or
every check passed, the new rule is appended to the loaded rules and success is
reported. -/
theorem addRule_outcome (f : Faults) (page : Page) :
    ((addRule f page).stored = page.stored ∧
      (addRule f page).status ≠ some ("Rule added successfully", "success")) ∨
    (validateDomain (trim page.sourceValue) true = .ok ∧
      validateDomain (trim page.targetValue) false = .ok ∧
      normalizeDomain (trim page.sourceValue) ≠ normalizeDomain (trim page.targetValue) ∧
      checkDuplicateSource (normalizeDomain (trim page.sourceValue)) (loadRules f page).1
        = false ∧
      f.setFails = false ∧
      (addRule f page).status = some ("Rule added successfully", "success") ∧
      (addRule f page).stored = some ((loadRules f page).1 ++
        [⟨generateRuleId (loadRules f page).1, normalizeDomain (trim page.sourceValue),
          trim page.targetValue⟩])) := by
  cases hv1 : validateDomain (trim page.sourceValue) true with
  | invalid e => left; simp [addRule, hv1, showStatus]
  | ok =>
    cases hv2 : validateDomain (trim page.targetValue) false with
    | invalid e => left; simp [addRule, hv1, hv2, showStatus]
    | ok =>
      by_cases heq : normalizeDomain (trim page.sourceValue)
          = normalizeDomain (trim page.targetValue)
      · left; simp [addRule, hv1, hv2, heq, showStatus]
      · cases hdup : checkDuplicateSource (normalizeDomain (trim page.sourceValue))
            (loadRules f page).1 with
        | true =>
          left
          cases hg : f.getFails <;>
            simp [addRule, hv1, hv2, heq, hdup, showStatus, loadRules, renderRulesList, hg] at hdup ⊢ <;>
            simp [hdup]
        | false =>
          cases hs : f.setFails with
          | true =>
            left
            cases hg : f.getFails <;>
              simp [addRule, hv1, hv2, heq, showStatus, loadRules, renderRulesList, hg, hs] at hdup ⊢ <;>
              simp [hdup]
          | false =>
            right
            refine ⟨rfl, rfl, heq, rfl, rfl, ?_, ?_⟩ <;>
            cases hg : f.getFails <;>
              simp [addRule, hv1, hv2, heq, showStatus, loadRules, renderRulesList, hg, hs,
                trim_trim] at hdup ⊢ <;>
              simp [hdup]

theorem generateRuleId_gt (R : List Rule) : ∀ r ∈ R, r.id < generateRuleId R := by
  intro r hr
  have hne : R ≠ [] := List.ne_nil_of_mem hr
  exact ((generateRuleId_spec R).2 hne).2 r hr

theorem generateRuleId_pos (R : List Rule) (h : idsPositive R) : 1 ≤ generateRuleId R := by
  cases R with
  | nil => decide
  | cons r rs =>
    have h1 := h r (List.mem_cons_self _ _)
    have h2 := generateRuleId_gt (r :: rs) r (List.mem_cons_self _ _)
    omega

theorem invariant_nil : RuleSetInvariant [] := by
  refine ⟨?_, ?_, ?_, ?_⟩
  · exact List.nodup_nil
  · exact List.nodup_nil
  · intro r hr; cases hr
  · intro r hr; cases hr

/-- Appending the rule that `addRule` builds keeps the invariants. -/
theorem invariant_append (R : List Rule) (src tgt : Str) (hinv : RuleSetInvariant R)
    (hv : validateDomain src true = .ok)
    (hne : normalizeDomain src ≠ normalizeDomain tgt)
    (hdup : checkDuplicateSource (normalizeDomain src) R = false) :
    RuleSetInvariant (R ++ [⟨generateRuleId R, normalizeDomain src, tgt⟩]) := by
  obtain ⟨h1, h2, h3, h4⟩ := hinv
  have hidem := (normalizeDomain_valid src true hv).2.2
  refine ⟨?_, ?_, ?_, ?_⟩
  · simp only [idsDistinct, List.map_append, List.map_cons, List.map_nil] at h1 ⊢
    refine List.Nodup.append h1 (List.nodup_singleton _) ?_
    intro x hx hx1
    rw [List.mem_singleton] at hx1
    obtain ⟨r, hr, rfl⟩ := List.mem_map.mp hx
    have := generateRuleId_gt R r hr
    omega
  · simp only [sourcesDistinct, List.map_append, List.map_cons, List.map_nil] at h2 ⊢
    refine List.Nodup.append h2 (List.nodup_singleton _) ?_
    intro x hx hx1
    rw [List.mem_singleton] at hx1
    obtain ⟨r, hr, rfl⟩ := List.mem_map.mp hx
    rw [hidem] at hx1
    have hd : checkDuplicateSource (normalizeDomain src) R = true := by
      simp only [checkDuplicateSource, List.any_eq_true, decide_eq_true_eq]
      exact ⟨r, hr, hx1⟩
    rw [hdup] at hd
    cases hd
  · intro r hr
    rcases List.mem_append.mp hr with hr | hr
    · exact h3 r hr
    · rw [List.mem_singleton] at hr
      subst hr
      exact hne
  · intro r hr
    rcases List.mem_append.mp hr with hr | hr
    · exact h4 r hr
    · rw [List.mem_singleton] at hr
      subst hr
      exact generateRuleId_pos R h4

/-- Removing rules keeps the invariants. -/
theorem invariant_filter (R : List Rule) (q : Rule → Bool) (hinv : RuleSetInvariant R) :
    RuleSetInvariant (R.filter q) := by
  obtain ⟨h1, h2, h3, h4⟩ := hinv
  refine ⟨?_, ?_, ?_, ?_⟩
  · exact List.Nodup.sublist (List.Sublist.map _ (List.filter_sublist R)) h1
  · exact List.Nodup.sublist (List.Sublist.map _ (List.filter_sublist R)) h2
  · intro r hr; exact h3 r (List.mem_of_mem_filter hr)
  · intro r hr; exact h4 r (List.mem_of_mem_filter hr)

theorem invariant_loadRules (f : Faults) (page : Page) (hinv : RuleSetInvariant page.rules) :
    RuleSetInvariant (loadRules f page).1 := by
  cases hg : f.getFails
  · simpa [loadRules, hg, Page.rules] using hinv
  · simpa [loadRules, hg] using invariant_nil

theorem invariant_addRule (f : Faults) (page : Page) (hinv : RuleSetInvariant page.rules) :
    RuleSetInvariant (addRule f page).rules := by
  rcases addRule_outcome f page with ⟨hst, _⟩ | ⟨hv1, _, hne, hdup, _, _, hst⟩
  · simpa [Page.rules, hst] using hinv
  · have hload := invariant_loadRules f page hinv
    have hneq : normalizeDomain (trim page.sourceValue)
        ≠ normalizeDomain (trim page.targetValue) := hne
    simpa [Page.rules, hst] using
      invariant_append (loadRules f page).1 (trim page.sourceValue) (trim page.targetValue)
        hload hv1 hneq hdup

theorem invariant_deleteRule (f : Faults) (ruleId : Int) (page : Page)
    (hinv : RuleSetInvariant page.rules) : RuleSetInvariant (deleteRule f ruleId page).rules := by
  cases hg : f.getFails <;> cases hs : f.setFails
  · simpa [deleteRule, hg, hs, loadRules, showStatus, renderRulesList, Page.rules] using
      invariant_filter page.rules (fun rule => decide (rule.id ≠ ruleId)) hinv
  · simpa [deleteRule, hg, hs, showStatus, Page.rules] using hinv
  · simpa [deleteRule, hg, hs, showStatus, Page.rules] using hinv
  · simpa [deleteRule, hg, hs, showStatus, Page.rules] using hinv

theorem invariant_apply (op : EditorOp) (page : Page) (hinv : RuleSetInvariant page.rules) :
    RuleSetInvariant (op.apply page).rules := by
  cases op with
  | add f source target =>
    exact invariant_addRule f (page.fill source target) (by simpa [Page.fill, Page.rules] using hinv)
  | delete f ruleId => exact invariant_deleteRule f ruleId page hinv

/-- Every sequence of editor operations keeps the invariants. -/
theorem invariant_runOps (ops : List EditorOp) (page : Page)
    (hinv : RuleSetInvariant page.rules) : RuleSetInvariant (runOps page ops).rules := by
  induction ops generalizing page with
  | nil => exact hinv
  | cons op ops ih => exact ih (op.apply page) (invariant_apply op page hinv)

theorem hostname_bare (h : Str) (hh : isHostname h = true) :
    hasProtocol h = false ∧ h.getLast? ≠ some '/' := by
  constructor
  · simpa using hasProtocol_form h hh [] [] (Or.inl rfl) (Or.inl rfl)
  · obtain ⟨t, c, rfl, hc⟩ := hostname_last h hh
    have : c ≠ '/' := by rintro rfl; revert hc; decide
    simpa using this

/-! ## The claims on reachable rule sets, failures and compiled redirects -/

/-- C11: every rule set reached from an empty rule set by a finite sequence of `addRule`
and `deleteRule` calls, with arbitrary arguments and storage faults, has pairwise
distinct ids, source domains that are pairwise distinct after `normalizeDomain`, and no
rule whose source domain equals its normalized target domain. -/
theorem reachable_rule_sets_keep_invariants (page : Page) (ops : List EditorOp)
    (h0 : page.rules = []) :
    idsDistinct (runOps page ops).rules ∧
    sourcesDistinct (runOps page ops).rules ∧
    sourcesDifferFromTargets (runOps page ops).rules := by
  have h := invariant_runOps ops page (by rw [h0]; exact invariant_nil)
  exact ⟨h.1, h.2.1, h.2.2.1⟩

theorem reachable_rule_sets_keep_invariants_witness :
    (runOps (Page.initial none)
        [.add ⟨false, false⟩ "a.com".toList "http://b.com/".toList,
         .add ⟨false, false⟩ "HTTP://A.com".toList "http://c.com".toList,
         .add ⟨false, false⟩ "c.com".toList "https://d.com".toList,
         .delete ⟨false, false⟩ 1,
         .add ⟨false, false⟩ "https://E.com/".toList "https://d.com".toList]).rules
      = [⟨2, "c.com".toList, "https://d.com".toList⟩,
         ⟨3, "e.com".toList, "https://d.com".toList⟩] ∧
    idsDistinct [⟨2, "c.com".toList, "https://d.com".toList⟩,
      ⟨3, "e.com".toList, "https://d.com".toList⟩] := by
  have h := (reachable_rule_sets_keep_invariants (Page.initial none)
    [.add ⟨false, false⟩ "a.com".toList "http://b.com/".toList,
     .add ⟨false, false⟩ "HTTP://A.com".toList "http://c.com".toList,
     .add ⟨false, false⟩ "c.com".toList "https://d.com".toList,
     .delete ⟨false, false⟩ 1,
     .add ⟨false, false⟩ "https://E.com/".toList "https://d.com".toList] rfl).1
  have e : (runOps (Page.initial none)
      [.add ⟨false, false⟩ "a.com".toList "http://b.com/".toList,
       .add ⟨false, false⟩ "HTTP://A.com".toList "http://c.com".toList,
       .add ⟨false, false⟩ "c.com".toList "https://d.com".toList,
       .delete ⟨false, false⟩ 1,
       .add ⟨false, false⟩ "https://E.com/".toList "https://d.com".toList]).rules
      = [⟨2, "c.com".toList, "https://d.com".toList⟩,
         ⟨3, "e.com".toList, "https://d.com".toList⟩] := by decide
  rw [e] at h
  exact ⟨e, h⟩

/-- C12, as stated, fails: a target typed with a trailing slash passes validation and is
stored with that slash. -/
theorem addRule_stores_trailing_slash :
    (addRule ⟨false, false⟩
        ((Page.initial none).fill "a.com".toList "http://b.com/".toList)).status
      = some ("Rule added successfully", "success") ∧
    (addRule ⟨false, false⟩
        ((Page.initial none).fill "a.com".toList "http://b.com/".toList)).stored
      = some [⟨1, "a.com".toList, "http://b.com/".toList⟩] ∧
    ("http://b.com/".toList).getLast? = some '/' := by
  decide

/-- C12, amended: every rule that a successful `addRule` appends to a rule set reached
from an empty one has an id of at least 1, a source domain that is a lower-case valid
hostname without protocol and without trailing slash, and a target domain made of
`http://` or `https://`, a valid hostname and at most one trailing slash. -/
theorem addRule_appends_well_shaped_rule (page : Page) (ops : List EditorOp) (f : Faults)
    (source target : Str) (h0 : page.rules = [])
    (hok : (addRule f ((runOps page ops).fill source target)).status
      = some ("Rule added successfully", "success")) :
    ∃ (L : List Rule) (rule : Rule),
      (addRule f ((runOps page ops).fill source target)).stored = some (L ++ [rule]) ∧
      1 ≤ rule.id ∧
      isHostname rule.sourceDomain = true ∧
      toLowerCase rule.sourceDomain = rule.sourceDomain ∧
      hasProtocol rule.sourceDomain = false ∧
      rule.sourceDomain.getLast? ≠ some '/' ∧
      hasProtocol rule.targetDomain = true ∧
      ∃ p h sl, (p = "http://".toList ∨ p = "https://".toList) ∧ isHostname h = true ∧
        (sl = [] ∨ sl = "/".toList) ∧ rule.targetDomain = p ++ h ++ sl := by
  have hinv := invariant_runOps ops page (by rw [h0]; exact invariant_nil)
  have hinv2 : RuleSetInvariant ((runOps page ops).fill source target).rules := by
    simpa [Page.fill, Page.rules] using hinv
  rcases addRule_outcome f ((runOps page ops).fill source target) with
    ⟨_, hno⟩ | ⟨hv1, hv2, _, _, _, _, hst⟩
  · exact absurd hok hno
  · have hload := invariant_loadRules f _ hinv2
    obtain ⟨hs1, hs2, _⟩ := normalizeDomain_valid _ true hv1
    obtain ⟨hb1, hb2⟩ := hostname_bare _ hs1
    obtain ⟨p, h, sl, hp, hsl, hh, hform, hpt⟩ := validateDomain_ok_form _ false hv2
    refine ⟨_, _, hst, generateRuleId_pos _ hload.2.2.2, hs1, hs2, hb1, hb2, ?_,
      p, h, sl, hpt rfl, hh, hsl, hform⟩
    have hpne : p.isEmpty = false := by rcases hpt rfl with rfl | rfl <;> rfl
    show hasProtocol (trim ((runOps page ops).fill source target).targetValue) = true
    rw [hform, hasProtocol_form h hh p sl hp hsl, hpne]
    rfl

theorem addRule_appends_well_shaped_rule_witness :
    ∃ (L : List Rule) (rule : Rule),
      (addRule ⟨false, false⟩
        ((runOps (Page.initial none)
          [.add ⟨false, false⟩ "a.com".toList "http://b.com".toList]).fill
            "C.com".toList "https://D.com/".toList)).stored = some (L ++ [rule]) ∧
      1 ≤ rule.id := by
  obtain ⟨L, rule, h1, h2, _⟩ := addRule_appends_well_shaped_rule (Page.initial none)
    [.add ⟨false, false⟩ "a.com".toList "http://b.com".toList] ⟨false, false⟩
    "C.com".toList "https://D.com/".toList rfl (by decide)
  exact ⟨L, rule, h1, h2⟩

/-- C13, as stated, fails: when the storage read fails, `loadRulesFromStorage` returns the
empty list and the rebuild goes on, so a successful update removes every active
descriptor. -/
theorem rebuildRules_read_failure_clears :
    rebuildRules { checkingHost with storageGetFails := true }
        (some [⟨1, "a.com".toList, "http://b.com".toList⟩])
        [buildRedirectRule ⟨7, "old.org".toList, "https://new.org".toList⟩] = [] ∧
    rebuildRules { checkingHost with storageGetFails := true }
        (some [⟨1, "a.com".toList, "http://b.com".toList⟩])
        [buildRedirectRule ⟨7, "old.org".toList, "https://new.org".toList⟩]
      ≠ [buildRedirectRule ⟨7, "old.org".toList, "https://new.org".toList⟩] := by
  decide

/-- C13, amended: `rebuildRules()` always returns. When the listing of the active
descriptors or the host-engine update fails, the active descriptor set afterwards is
still the prior one. A failed storage read does not abort the rebuild: it continues
with the empty rule set, and when the update then succeeds the active set is empty. -/
theorem rebuildRules_failure_semantics (host : Host) (stored : Option (List Rule))
    (A : List Descriptor) :
    (host.getDynamicRulesFails = true → rebuildRules host stored A = A) ∧
    (hostUpdateDynamicRules host A (A.map (fun d => d.id))
        ((loadRulesFromStorage host stored).map (fun r => buildRedirectRule r)) = none →
      rebuildRules host stored A = A) ∧
    (host.storageGetFails = true → loadRulesFromStorage host stored = []) ∧
    (host.storageGetFails = true → host.getDynamicRulesFails = false →
      host.accepts [] [] = true → rebuildRules host stored A = []) := by
  refine ⟨?_, ?_, ?_, ?_⟩
  · intro h
    simp [rebuildRules, updateDynamicRules, h]
  · intro h
    cases hl : host.getDynamicRulesFails
    · simp only [rebuildRules, updateDynamicRules, hl, Bool.false_eq_true, if_false, h]
    · simp [rebuildRules, updateDynamicRules, hl]
  · intro h
    simp [loadRulesFromStorage, h]
  · intro h1 h2 h3
    have hres : hostUpdateDynamicRules host A (A.map (fun d => d.id)) [] = some [] := by
      simp only [hostUpdateDynamicRules, filter_own_ids, h3, if_true, List.append_nil]
    simp only [rebuildRules, loadRulesFromStorage, h1, if_true, updateDynamicRules, h2,
      Bool.false_eq_true, if_false, List.map_nil, hres]

theorem rebuildRules_failure_semantics_witness :
    rebuildRules { checkingHost with getDynamicRulesFails := true }
        (some [⟨1, "a.com".toList, "http://b.com".toList⟩])
        [buildRedirectRule ⟨7, "old.org".toList, "https://new.org".toList⟩]
      = [buildRedirectRule ⟨7, "old.org".toList, "https://new.org".toList⟩] :=
  (rebuildRules_failure_semantics { checkingHost with getDynamicRulesFails := true }
    (some [⟨1, "a.com".toList, "http://b.com".toList⟩])
    [buildRedirectRule ⟨7, "old.org".toList, "https://new.org".toList⟩]).1 rfl

/-- C14: when `addRule` reports a validation error (an empty or malformed domain, a
target without protocol, a source equal to the target, a duplicate source) the stored
rule set is left as it was; the stored rule set changes only on the path that reports
success. -/
theorem addRule_errors_store_nothing (f : Faults) (page : Page) :
    (∀ e, validateDomain (trim page.sourceValue) true = .invalid e →
      (addRule f page).status = some (e, "error") ∧ (addRule f page).stored = page.stored) ∧
    (∀ e, validateDomain (trim page.sourceValue) true = .ok →
      validateDomain (trim page.targetValue) false = .invalid e →
      (addRule f page).status = some (e, "error") ∧ (addRule f page).stored = page.stored) ∧
    (validateDomain (trim page.sourceValue) true = .ok →
      validateDomain (trim page.targetValue) false = .ok →
      normalizeDomain (trim page.sourceValue) = normalizeDomain (trim page.targetValue) →
      (addRule f page).status
          = some ("Source and target domains must be different", "error") ∧
        (addRule f page).stored = page.stored) ∧
    (validateDomain (trim page.sourceValue) true = .ok →
      validateDomain (trim page.targetValue) false = .ok →
      normalizeDomain (trim page.sourceValue) ≠ normalizeDomain (trim page.targetValue) →
      checkDuplicateSource (normalizeDomain (trim page.sourceValue)) (loadRules f page).1
        = true →
      (addRule f page).status = some ("Rule for this domain already exists", "error") ∧
        (addRule f page).stored = page.stored) ∧
    ((addRule f page).stored ≠ page.stored →
      (addRule f page).status = some ("Rule added successfully", "success")) := by
  refine ⟨?_, ?_, ?_, ?_, ?_⟩
  · intro e hv1
    simp [addRule, hv1, showStatus]
  · intro e hv1 hv2
    simp [addRule, hv1, hv2, showStatus]
  · intro hv1 hv2 heq
    simp [addRule, hv1, hv2, heq, showStatus]
  · intro hv1 hv2 hne hdup
    cases hg : f.getFails <;>
      simp [addRule, hv1, hv2, hne, showStatus, loadRules, renderRulesList, hg] at hdup ⊢ <;>
      simp [hdup]
  · intro hch
    rcases addRule_outcome f page with ⟨hst, _⟩ | ⟨_, _, _, _, _, hok, _⟩
    · exact absurd hst hch
    · exact hok

theorem addRule_errors_store_nothing_witness :
    (addRule ⟨false, false⟩
        ((Page.initial (some [⟨1, "a.com".toList, "http://b.com".toList⟩])).fill
          "a.com".toList "b.com".toList)).status
      = some ("Target domain must include protocol (http:// or https://)", "error") ∧
    (addRule ⟨false, false⟩
        ((Page.initial (some [⟨1, "a.com".toList, "http://b.com".toList⟩])).fill
          "a.com".toList "b.com".toList)).stored
      = some [⟨1, "a.com".toList, "http://b.com".toList⟩] :=
  (addRule_errors_store_nothing ⟨false, false⟩
    ((Page.initial (some [⟨1, "a.com".toList, "http://b.com".toList⟩])).fill
      "a.com".toList "b.com".toList)).2.1 _ (by decide) (by decide)

/-- C16: the storage-change listener calls `rebuildRules()` exactly when the area is
`local` and the changed keys include `rules`; for any other area, or when `rules` is
not among the changed keys, it does nothing and the active descriptors are unchanged. -/
theorem listener_rebuilds_only_for_local_rules (host : Host) (changes : List String)
    (areaName : String) (stored : Option (List Rule)) (active : List Descriptor) :
    (listenerRebuilds changes areaName = true ↔ areaName = "local" ∧ "rules" ∈ changes) ∧
    (areaName = "local" → "rules" ∈ changes →
      onStorageChanged host changes areaName stored active
        = rebuildRules host stored active) ∧
    (areaName ≠ "local" → onStorageChanged host changes areaName stored active = active) ∧
    ("rules" ∉ changes → onStorageChanged host changes areaName stored active = active) := by
  have hiff : listenerRebuilds changes areaName = true
      ↔ areaName = "local" ∧ "rules" ∈ changes := by
    simp [listenerRebuilds]
  refine ⟨hiff, ?_, ?_, ?_⟩
  · intro h1 h2
    simp [onStorageChanged, hiff.mpr ⟨h1, h2⟩]
  · intro h1
    have : listenerRebuilds changes areaName = false := by
      rw [Bool.eq_false_iff]; exact fun h => h1 (hiff.mp h).1
    simp [onStorageChanged, this]
  · intro h2
    have : listenerRebuilds changes areaName = false := by
      rw [Bool.eq_false_iff]; exact fun h => h2 (hiff.mp h).2
    simp [onStorageChanged, this]

theorem listener_rebuilds_only_for_local_rules_witness :
    onStorageChanged checkingHost ["rules"] "sync"
        (some [⟨1, "a.com".toList, "http://b.com".toList⟩]) [] = [] ∧
    onStorageChanged checkingHost ["rules", "theme"] "local"
        (some [⟨1, "a.com".toList, "http://b.com".toList⟩]) []
      = rebuildRules checkingHost (some [⟨1, "a.com".toList, "http://b.com".toList⟩]) [] :=
  ⟨(listener_rebuilds_only_for_local_rules checkingHost ["rules"] "sync"
      (some [⟨1, "a.com".toList, "http://b.com".toList⟩]) []).2.2.1 (by decide),
   (listener_rebuilds_only_for_local_rules checkingHost ["rules", "theme"] "local"
      (some [⟨1, "a.com".toList, "http://b.com".toList⟩]) []).2.1 rfl (by decide)⟩

/-- C17: for the rule that a successful `addRule` appends, `normalizeTargetDomain` takes
the branch for a target with protocol: its result is the stored target with at most
one trailing slash removed, and the substitution of the compiled descriptor starts with
the protocol the user typed. -/
theorem addRule_target_keeps_protocol (f : Faults) (page : Page)
    (hok : (addRule f page).status = some ("Rule added successfully", "success")) :
    ∃ (L : List Rule) (rule : Rule),
      (addRule f page).stored = some (L ++ [rule]) ∧
      rule.targetDomain = trim page.targetValue ∧
      hasProtocol rule.targetDomain = true ∧
      normalizeTargetDomain rule.targetDomain = stripTrailingSlash rule.targetDomain ∧
      (normalizeTargetDomain rule.targetDomain = rule.targetDomain ∨
        normalizeTargetDomain rule.targetDomain ++ ['/'] = rule.targetDomain) ∧
      (startsWith rule.targetDomain httpsPrefix = true →
        startsWith (buildRedirectRule rule).regexSubstitution httpsPrefix = true) ∧
      (startsWith rule.targetDomain httpPrefix = true →
        startsWith (buildRedirectRule rule).regexSubstitution httpPrefix = true) := by
  rcases addRule_outcome f page with ⟨_, hno⟩ | ⟨_, hv2, _, _, _, _, hst⟩
  · exact absurd hok hno
  · obtain ⟨p, h, sl, hp, hsl, hh, hform, hpt⟩ := validateDomain_ok_form _ false hv2
    have hpne : p.isEmpty = false := by rcases hpt rfl with rfl | rfl <;> rfl
    have hprot : hasProtocol (trim page.targetValue) = true := by
      rw [hform, hasProtocol_form h hh p sl hp hsl, hpne]; rfl
    have hnorm : normalizeTargetDomain (trim page.targetValue)
        = stripTrailingSlash (trim page.targetValue) := by
      simp only [hasProtocol] at hprot
      simp only [normalizeTargetDomain, hprot, if_true]
    have hstrip : stripTrailingSlash (trim page.targetValue) = p ++ h := by
      rw [hform]
      rcases hsl with rfl | rfl
      · rw [List.append_nil, stripTrailingSlash_eq]
        obtain ⟨t, c, rfl, hc⟩ := hostname_last h hh
        have : c ≠ '/' := by rintro rfl; revert hc; decide
        simp [this]
      · exact stripTrailingSlash_slash _
    refine ⟨_, _, hst, rfl, hprot, hnorm, ?_, ?_, ?_⟩
    · show normalizeTargetDomain (trim page.targetValue) = trim page.targetValue ∨
        normalizeTargetDomain (trim page.targetValue) ++ ['/'] = trim page.targetValue
      rw [hnorm, hstrip, hform]
      rcases hsl with rfl | rfl
      · left; simp
      · right; rfl
    · intro hs
      show startsWith (normalizeTargetDomain (trim page.targetValue) ++ ['\\', '1'])
        httpsPrefix = true
      have hs1 : startsWith (trim page.targetValue) httpsPrefix = true := hs
      rw [hnorm, hstrip]
      rw [hform] at hs1
      rcases hpt rfl with rfl | rfl
      · simp [startsWith, httpPrefix_eq, httpsPrefix_eq] at hs1
      · simp [startsWith, httpsPrefix_eq]
    · intro hs
      show startsWith (normalizeTargetDomain (trim page.targetValue) ++ ['\\', '1'])
        httpPrefix = true
      have hs1 : startsWith (trim page.targetValue) httpPrefix = true := hs
      rw [hnorm, hstrip]
      rw [hform] at hs1
      rcases hpt rfl with rfl | rfl
      · simp [startsWith, httpPrefix_eq]
      · simp [startsWith, httpPrefix_eq, httpsPrefix_eq] at hs1

theorem addRule_target_keeps_protocol_witness :
    ∃ (L : List Rule) (rule : Rule),
      (addRule ⟨false, false⟩
        ((Page.initial none).fill "a.com".toList "https://b.com/".toList)).stored
          = some (L ++ [rule]) ∧
      hasProtocol rule.targetDomain = true := by
  obtain ⟨L, rule, h1, _, h3, _⟩ := addRule_target_keeps_protocol ⟨false, false⟩
    ((Page.initial none).fill "a.com".toList "https://b.com/".toList) (by decide)
  exact ⟨L, rule, h1, h3⟩

/-- C18: `normalizeDomain` is idempotent on every string that `validateDomain` accepts, as
a source or as a target, so normalizing a stored source domain again returns it
unchanged; it is not idempotent on arbitrary strings, as two inputs show. -/
theorem normalizeDomain_idempotent_on_valid :
    (∀ (x : Str) (isSource : Bool), (validateDomain x isSource).valid = true →
      normalizeDomain (normalizeDomain x) = normalizeDomain x) ∧
    normalizeDomain (normalizeDomain "http://http://a.com".toList)
      ≠ normalizeDomain "http://http://a.com".toList ∧
    normalizeDomain (normalizeDomain "a.com//".toList) ≠ normalizeDomain "a.com//".toList := by
  refine ⟨?_, by decide, by decide⟩
  intro x isSource hv
  exact (normalizeDomain_valid x isSource (valid_eq_true _ hv)).2.2

theorem normalizeDomain_idempotent_on_valid_witness :
    normalizeDomain (normalizeDomain "https://Example.com/".toList)
      = normalizeDomain "https://Example.com/".toList :=
  normalizeDomain_idempotent_on_valid.1 "https://Example.com/".toList false (by decide)

/-! ## The redirect computed from a compiled descriptor -/

theorem run_seqAll_cons (n : Nat) (r : Re) (rs : List Re) (st : MState) :
    (seqAll (r :: rs)).run n st = (r.run n st).flatMap (fun st1 => (seqAll rs).run n st1) := by
  cases rs with
  | nil => simp [seqAll, Re.run]
  | cons r1 rs => rfl

theorem run_lits (n : Nat) (w : Str) (rs : List Re) (m : Str) (caps : List (Nat × Str)) :
    (seqAll (w.map Re.chr ++ rs)).run n ⟨w ++ m, caps⟩ = (seqAll rs).run n ⟨m, caps⟩ := by
  induction w with
  | nil => rfl
  | cons c cs ih =>
    simp only [List.map_cons, List.cons_append]
    rw [run_seqAll_cons]
    simp [Re.run, ih]

theorem starLoop_chars_head (step : MState → List MState)
    (hstep : ∀ c cs, isLineTerminator c = false → step ⟨c :: cs, []⟩ = [⟨cs, []⟩])
    (fuel : Nat) (rest : Str) (h : rest.length ≤ fuel)
    (hlt : ∀ c ∈ rest, isLineTerminator c = false) :
    (starLoop step fuel ⟨rest, []⟩).head? = some ⟨[], []⟩ := by
  induction fuel generalizing rest with
  | zero =>
    have hr : rest = [] := List.length_eq_zero.mp (Nat.le_zero.mp h)
    subst hr
    rfl
  | succ fuel ih =>
    cases rest with
    | nil =>
      simp only [starLoop]
      have hf : (step ⟨[], []⟩).filter
          (fun st1 => decide (st1.rest.length < ([] : Str).length)) = [] := by
        rw [List.filter_eq_nil_iff]
        intro a _
        simp
      rw [hf]
      rfl
    | cons c cs =>
      have hc : isLineTerminator c = false := hlt c (List.mem_cons_self _ _)
      have hcs := ih cs (by simp at h; omega) (fun x hx => hlt x (List.mem_cons_of_mem _ hx))
      simp only [starLoop, hstep c cs hc]
      have hf : [(⟨cs, []⟩ : MState)].filter
          (fun st1 => decide (st1.rest.length < (c :: cs).length)) = [⟨cs, []⟩] := by
        simp
      rw [hf, List.flatMap_singleton, List.head?_append, hcs]
      rfl

theorem run_star_any_head (n : Nat) (rest : Str)
    (hlt : ∀ c ∈ rest, isLineTerminator c = false) :
    ((Re.star .any).run n ⟨rest, []⟩).head? = some ⟨[], []⟩ :=
  starLoop_chars_head
    (fun s => Re.any.run n { s with caps := s.caps.filter (fun c => !Re.any.groups.contains c.1) })
    (by intro c cs hc; simp [Re.run, hc]) rest.length rest (Nat.le_refl _) hlt

theorem run_group_star_any_head (n : Nat) (rest : Str)
    (hlt : ∀ c ∈ rest, isLineTerminator c = false) :
    ((Re.group 1 (.star .any)).run n ⟨rest, []⟩).head? = some ⟨[], [(1, rest)]⟩ := by
  have e : (Re.group 1 (.star .any)).run n ⟨rest, []⟩
      = ((Re.star .any).run n ⟨rest, []⟩).map (fun st1 =>
          { st1 with caps := (1, rest.take (rest.length - st1.rest.length)) :: st1.caps }) := rfl
  rw [e, List.head?_map, run_star_any_head n rest hlt]
  simp

/-- The match of the filter built for a valid hostname in a URL on that host: the whole
URL is matched and group 1 is what follows the host. -/
theorem exec_buildRegexPattern (s rest p : Str) (hs : isHostname s = true)
    (hp : p = httpPrefix ∨ p = httpsPrefix)
    (hlt : ∀ c ∈ rest, isLineTerminator c = false) :
    regexExec (buildRegexPattern s) (p ++ s ++ rest)
      = some ⟨[], p ++ s ++ rest, [], [(1, rest)]⟩ := by
  have hre : filterRe s = .seq .bol (seqAll ("http".toList.map Re.chr ++
      (Re.opt (.chr 's') :: (("://".toList ++ s).map Re.chr ++ [Re.group 1 (.star .any)])))) :=
    rfl
  have hgroup : ((seqAll [Re.group 1 (.star .any)]).run (p ++ s ++ rest).length
      ⟨rest, []⟩).head? = some ⟨[], [(1, rest)]⟩ := by
    exact run_group_star_any_head _ rest hlt
  have hhead : ((seqAll ("http".toList.map Re.chr ++
      (Re.opt (.chr 's') :: (("://".toList ++ s).map Re.chr ++ [Re.group 1 (.star .any)])))).run
        (p ++ s ++ rest).length ⟨p ++ s ++ rest, []⟩).head? = some ⟨[], [(1, rest)]⟩ := by
    rcases hp with rfl | rfl
    · have e : httpPrefix ++ s ++ rest = "http".toList ++ (("://".toList ++ s) ++ rest) := by
        simp [httpPrefix_eq]
      rw [e, run_lits, run_seqAll_cons]
      have hopt : (Re.opt (.chr 's')).run ("http".toList ++ ("://".toList ++ s ++ rest)).length
          ⟨"://".toList ++ s ++ rest, []⟩ = [⟨"://".toList ++ s ++ rest, []⟩] := by
        simp [Re.run]
      rw [hopt, List.flatMap_singleton, run_lits, ← e]
      exact hgroup
    · have e : httpsPrefix ++ s ++ rest
          = "http".toList ++ ('s' :: (("://".toList ++ s) ++ rest)) := by
        simp [httpsPrefix_eq]
      rw [e, run_lits, run_seqAll_cons]
      have hopt : (Re.opt (.chr 's')).run
          ("http".toList ++ ('s' :: ("://".toList ++ s ++ rest))).length
          ⟨'s' :: ("://".toList ++ s ++ rest), []⟩
          = [⟨"://".toList ++ s ++ rest, []⟩, ⟨'s' :: ("://".toList ++ s ++ rest), []⟩] := by
        simp [Re.run]
      have hdead : (seqAll (("://".toList ++ s).map Re.chr ++ [Re.group 1 (.star .any)])).run
          ("http".toList ++ ('s' :: ("://".toList ++ s ++ rest))).length
          ⟨'s' :: ("://".toList ++ s ++ rest), []⟩ = [] := by
        have e2 : ("://".toList ++ s).map Re.chr ++ [Re.group 1 (.star .any)]
            = Re.chr ':' :: (("//".toList ++ s).map Re.chr ++ [Re.group 1 (.star .any)]) := rfl
        rw [e2, run_seqAll_cons]
        simp [Re.run]
      rw [hopt, List.flatMap_cons, List.flatMap_cons, List.flatMap_nil, hdead, List.append_nil,
        List.append_nil, run_lits, ← e]
      exact hgroup
  simp only [regexExec, parse_buildRegexPattern s hs]
  rw [hre, exec_bol, hhead]
  simp

theorem expandSubstitution_cons (m : Match) (c : Char) (tl : Str) (hc : c ≠ '\\') :
    expandSubstitution m (c :: tl) = c :: expandSubstitution m tl := by
  cases tl with
  | nil => simp [expandSubstitution]
  | cons d cs => simp [expandSubstitution, hc]

/-- A substitution without backslash before its final `\1` expands to itself followed
by group 1. -/
theorem expandSubstitution_target (m : Match) (t : Str) (ht : '\\' ∉ t) :
    expandSubstitution m (t ++ ['\\', '1']) = t ++ m.reference 1 := by
  induction t with
  | nil =>
    have h1 : ('1' : Char).isDigit = true := by decide
    have h2 : ('1' : Char).toNat - ('0' : Char).toNat = 1 := by decide
    simp [expandSubstitution, h1, h2]
  | cons c cs ih =>
    have hc : c ≠ '\\' := fun h => ht (by simp [h])
    have hcs : '\\' ∉ cs := fun h => ht (List.mem_cons_of_mem _ h)
    rw [List.cons_append, expandSubstitution_cons m c _ hc, ih hcs, List.cons_append]

theorem normalizeTargetDomain_no_backslash (t : Str) (ht : '\\' ∉ t) :
    '\\' ∉ normalizeTargetDomain t := by
  have hstrip : '\\' ∉ stripTrailingSlash t := by
    rw [stripTrailingSlash_eq]
    split
    · exact fun h => ht (List.mem_of_mem_dropLast h)
    · exact ht
  simp only [normalizeTargetDomain]
  split
  · exact hstrip
  · intro h
    rcases List.mem_append.mp h with h | h
    · revert h; rw [httpPrefix_eq]; decide
    · exact hstrip h

theorem applyDescriptor_on_host (id : Int) (s t rest p : Str) (hs : isHostname s = true)
    (hp : p = httpPrefix ∨ p = httpsPrefix) (ht : '\\' ∉ t)
    (hlt : ∀ c ∈ rest, isLineTerminator c = false) :
    applyDescriptor (buildRedirectRule ⟨id, s, t⟩) (p ++ s ++ rest)
      = some (normalizeTargetDomain t ++ rest) := by
  have hf : (buildRedirectRule ⟨id, s, t⟩).regexFilter = buildRegexPattern s := rfl
  have hsub : (buildRedirectRule ⟨id, s, t⟩).regexSubstitution
      = normalizeTargetDomain t ++ ['\\', '1'] := rfl
  simp only [applyDescriptor, hf, hsub, exec_buildRegexPattern s rest p hs hp hlt,
    expandSubstitution_target _ _ (normalizeTargetDomain_no_backslash t ht)]
  simp [Match.reference, Match.group]

/-- C15, as stated, fails: the target is copied into the substitution as it is, so a
backslash followed by a digit in the target is read as a group reference. -/
theorem applyDescriptor_backslash_in_target :
    isHostname "a.com".toList = true ∧
    (∀ c ∈ "/x".toList, isLineTerminator c = false) ∧
    applyDescriptor (buildRedirectRule ⟨1, "a.com".toList, "http://b.com\\1".toList⟩)
        "http://a.com/x".toList = some "http://b.com/x/x".toList ∧
    applyDescriptor (buildRedirectRule ⟨1, "a.com".toList, "http://b.com\\1".toList⟩)
        ("http://".toList ++ "a.com".toList ++ "/x".toList)
      ≠ some (normalizeTargetDomain "http://b.com\\1".toList ++ "/x".toList) := by
  decide

/-- C15, amended: for a rule with a valid source hostname and a target without backslash
(as is every target that passes validation), and every rest without line terminator,
applying the compiled descriptor to `http://` or `https://` followed by the source and
the rest yields `normalizeTargetDomain` of the target followed by the rest. -/
theorem applyDescriptor_reattaches_rest (id : Int) (s t rest : Str)
    (hs : isHostname s = true) (ht : '\\' ∉ t)
    (hlt : ∀ c ∈ rest, isLineTerminator c = false) :
    applyDescriptor (buildRedirectRule ⟨id, s, t⟩) ("http://".toList ++ s ++ rest)
      = some (normalizeTargetDomain t ++ rest) ∧
    applyDescriptor (buildRedirectRule ⟨id, s, t⟩) ("https://".toList ++ s ++ rest)
      = some (normalizeTargetDomain t ++ rest) :=
  ⟨applyDescriptor_on_host id s t rest httpPrefix hs (Or.inl rfl) ht hlt,
   applyDescriptor_on_host id s t rest httpsPrefix hs (Or.inr rfl) ht hlt⟩

theorem applyDescriptor_reattaches_rest_witness :
    applyDescriptor (buildRedirectRule ⟨1, "a.com".toList, "https://b.com/".toList⟩)
        ("http://".toList ++ "a.com".toList ++ "/path?q=1".toList)
      = some ("https://b.com".toList ++ "/path?q=1".toList) := by
  have h := (applyDescriptor_reattaches_rest 1 "a.com".toList "https://b.com/".toList
    "/path?q=1".toList (by decide) (by decide) (by decide)).1
  have e : normalizeTargetDomain "https://b.com/".toList = "https://b.com".toList := by decide
  rw [e] at h
  exact h

end DomainRedirector
